import Mathlib

/-!
# Verification of the campus-smart-guide RAG core

A shallow embedding, in Lean 4, of the retrieval-augmented-generation core of
the `campus-smart-guide` repository, together with proofs about it.

Conventions of the embedding:
* Python strings are modelled as `List Char` (with `String` wrappers where the
  original code works with opaque identifiers).  Only the ASCII fragment of
  Python's `str.lower`/`str.strip`/`str.split` semantics is modelled, which is
  exact for every string manipulated by the verified code paths.
* Python floats are modelled as rationals (`ℚ`); `math.sqrt`, whose exact value
  never matters for any verified property, is passed in as an arbitrary
  function `sqrtf : ℚ → ℚ`.
* Code that can raise an exception is modelled with `Option`/pairs carrying an
  error component; a `none`/`some err` result corresponds to the Python call
  raising.
* Asynchronous generators are modelled as finite lists of the values they
  yield, together with an optional terminal error (the exception the generator
  raises after its last yielded element, if any).
-/

/-! ## ASCII fragment of Python string helpers -/

/-- The whitespace characters recognised by Python's `str.strip`, `str.split`
and the regex class `\s` (ASCII fragment). -/
def pyIsSpace (c : Char) : Bool :=
  c = ' ' || c = '\t' || c = '\n' || c = '\r' || c = '\x0b' || c = '\x0c'

/-- Python `str.strip()`: drop leading and trailing whitespace. -/
def pyStrip (l : List Char) : List Char :=
  ((l.dropWhile pyIsSpace).reverse.dropWhile pyIsSpace).reverse

/-- Python `str.lower()` (ASCII fragment), applied characterwise. -/
def pyLower (l : List Char) : List Char :=
  l.map Char.toLower

/-- Worker for `pySplit`: `w` holds the reversed characters of the word
currently being scanned. -/
def pySplitAux (w : List Char) : List Char → List (List Char)
  | [] => if w = [] then [] else [w.reverse]
  | c :: cs =>
    if pyIsSpace c then
      if w = [] then pySplitAux [] cs else w.reverse :: pySplitAux [] cs
    else pySplitAux (c :: w) cs

/-- Python `str.split()` with no separator: split on whitespace runs,
discarding empty words. -/
def pySplit (l : List Char) : List (List Char) :=
  pySplitAux [] l

/-- `listStartsWith needle hay` is true when `needle` is a prefix of `hay`. -/
def listStartsWith : List Char → List Char → Bool
  | [], _ => true
  | _ :: _, [] => false
  | a :: as, b :: bs => a = b && listStartsWith as bs

/-- Python's substring test `needle in hay` on strings (`listContains needle
hay` scans every suffix of `hay` for `needle` as a prefix). -/
def listContains (needle : List Char) : List Char → Bool
  | [] => needle.isEmpty
  | c :: cs => listStartsWith needle (c :: cs) || listContains needle cs

/-- Substring test lifted to `String`. -/
def strContains (needle hay : String) : Bool :=
  listContains needle.toList hay.toList

/-! ## Scope guard (`src/ai-model/main.py`) -/

/-- `BITS_KEYWORDS` from `src/ai-model/main.py`: the fixed in-domain
vocabulary of the topic guard (a Python `set`; membership order is
irrelevant, so a list is used). -/
def bitsKeywords : List String :=
  [ "bits", "pilani", "goa", "campus", "college", "university", "institute",
    "birla", "hyderabad", "dubai",
    "csis", "cs", "ece", "eee", "mech", "civil", "pharma", "bio",
    "computer", "science", "engineering", "information", "systems",
    "department", "faculty", "professor", "phd", "mtech", "btech",
    "msc", "research", "lab", "laboratory",
    "student", "course", "semester", "exam", "assignment", "grade", "cgpa",
    "sgpa", "attendance", "hostel", "mess", "canteen", "library", "fest",
    "el", "practice school", "thesis", "dissertation", "project",
    "admission", "registration", "fee", "scholarship", "ta",
    "teaching assistant",
    "reimbursement", "noc", "bonafide", "transcript", "certificate",
    "placement", "internship", "company", "recruit", "package",
    "smartassist", "smart assist", "assistant", "help", "guide", "about",
    "who", "what", "when", "where", "how", "which", "contact", "email",
    "phone", "office", "timings", "schedule", "timetable", "calendar" ]

/-- The lowercased, stripped form of the query used by `is_bits_related`
(`q = query.lower().strip()`). -/
def guardQuery (query : String) : List Char :=
  pyStrip (pyLower query.toList)

/-- The word count `len(q.split())` computed by `is_bits_related`. -/
def guardWordCount (query : String) : Nat :=
  (pySplit (guardQuery query)).length

/-- `is_bits_related` from `src/ai-model/main.py`: queries of at most six
words always pass; longer queries pass iff some keyword of `BITS_KEYWORDS`
occurs as a substring of the lowercased query. -/
def isBitsRelated (query : String) : Bool :=
  if guardWordCount query ≤ 6 then true
  else bitsKeywords.any fun kw => listContains kw.toList (guardQuery query)

/-- The two branches of the `/api/chat` handler in `src/ai-model/main.py`. -/
inductive ChatRoute
  | outOfScope
  | ragPipeline
deriving DecidableEq

/-- The topic-guard dispatch of `chat_stream` in `src/ai-model/main.py`:
if `is_bits_related` rejects the last user message the handler returns the
canned out-of-scope stream, otherwise it runs the RAG pipeline. -/
def chatRoute (userMessage : String) : ChatRoute :=
  if isBitsRelated userMessage then ChatRoute.ragPipeline else ChatRoute.outOfScope

example : guardWordCount "what is the capital of France" = 6 := by decide
example : isBitsRelated "what is the capital of France" = true := by decide
example : isBitsRelated "there are seven certain answers given here" = true := by decide
example : isBitsRelated "zzz qqq rrr sss ttt uuu vvv" = false := by decide

/-! ## Vector store (`src/ai-model/app/vector_store.py`)

The store (`self._docs`, a Python `dict[str, Document]`) is modelled as a
`List Document` in dict iteration order: Python dicts iterate in insertion
order and overwriting an existing key keeps its original position, which is
exactly what `insertOrReplace` below does. -/

/-- The metadata dict attached to documents/chunks, modelled as a record of
the keys the code reads (every other key is never consulted). -/
structure Metadata where
  title : Option String := none
  category : Option String := none
  chunkIndex : Option Nat := none
  totalChunks : Option Nat := none
deriving DecidableEq

/-- `Document` from `src/ai-model/app/vector_store.py`. -/
structure Document where
  id : String
  content : String
  metadata : Metadata := {}
  embedding : List ℚ := []
deriving DecidableEq

/-- `SearchResult` from `src/ai-model/app/vector_store.py`. -/
structure SearchResult where
  document : Document
  similarity : ℚ
deriving DecidableEq

/-- `VectorStore._cosine_similarity`, with `math.sqrt` abstracted as an
arbitrary `sqrtf` (no verified property depends on the value of the square
root).  `none` models the `ValueError` raised on mismatched lengths;
a zero norm yields similarity `0.0` rather than an error. -/
def cosineSimilarity (sqrtf : ℚ → ℚ) (a b : List ℚ) : Option ℚ :=
  if a.length ≠ b.length then none
  else
    let dot := ((a.zip b).map fun p => p.1 * p.2).sum
    let na := sqrtf ((a.map fun x => x * x).sum)
    let nb := sqrtf ((b.map fun x => x * x).sum)
    if na = 0 ∨ nb = 0 then some 0 else some (dot / (na * nb))

/-- The `if filter_fn and not filter_fn(doc)` test of `VectorStore.search`:
a missing filter accepts every document. -/
def passesFilter (fil : Option (Document → Bool)) (d : Document) : Bool :=
  match fil with
  | none => true
  | some f => f d

/-- The accumulation loop of `VectorStore.search`: scan the stored documents
in dict order, skip documents with no embedding or failing the filter,
compute the cosine similarity and keep results with `sim >= threshold`.
`none` models the loop propagating a `ValueError` from the similarity
computation. -/
def searchCandidates (sqrtf : ℚ → ℚ) (q : List ℚ) (threshold : ℚ)
    (fil : Option (Document → Bool)) : List Document → Option (List SearchResult)
  | [] => some []
  | d :: ds =>
    if d.embedding = [] then searchCandidates sqrtf q threshold fil ds
    else if ¬ passesFilter fil d then searchCandidates sqrtf q threshold fil ds
    else
      match cosineSimilarity sqrtf q d.embedding with
      | none => none
      | some s =>
        match searchCandidates sqrtf q threshold fil ds with
        | none => none
        | some rest => some (if threshold ≤ s then ⟨d, s⟩ :: rest else rest)

/-- The comparison handed to `results.sort(key=lambda r: r.similarity,
reverse=True)`: descending by similarity. -/
def simDescLE (a b : SearchResult) : Bool :=
  decide (b.similarity ≤ a.similarity)

/-- `VectorStore.search`: collect candidates, sort them in descending order
of similarity with Python's stable sort (modelled by the stable
`List.mergeSort`), and return the first `limit` results. -/
def VectorStore.search (sqrtf : ℚ → ℚ) (q : List ℚ) (limit : Nat) (threshold : ℚ)
    (fil : Option (Document → Bool)) (docs : List Document) :
    Option (List SearchResult) :=
  (searchCandidates sqrtf q threshold fil docs).map fun results =>
    (results.mergeSort simDescLE).take limit

/-- `dict` assignment `self._docs[doc.id] = doc`: replace the first entry
with the same id (keeping its position) or append at the end. -/
def insertOrReplace : List Document → Document → List Document
  | [], d => [d]
  | x :: xs, d => if x.id = d.id then d :: xs else x :: insertOrReplace xs d

/-- `VectorStore.add`: raises `ValueError` (the `some`-message component)
when the embedding is empty, leaving the store unchanged; otherwise inserts
or overwrites by id. -/
def VectorStore.add (store : List Document) (d : Document) :
    Option String × List Document :=
  if d.embedding = [] then (some "Document must have an embedding", store)
  else (none, insertOrReplace store d)

/-- `VectorStore.get`: dict lookup by id. -/
def VectorStore.get (store : List Document) (i : String) : Option Document :=
  store.find? fun d => d.id = i

/-! ## Document processor (`src/ai-model/app/document_processor.py`) -/

/-- The character class `[.!?\n]` of the sentence-splitting regex. -/
def isTerm (c : Char) : Bool :=
  c = '.' || c = '!' || c = '?' || c = '\n'

/-- `re.sub(r"\s+", " ", content)`: collapse every maximal whitespace run to
a single space (a whitespace character is dropped when the next character is
also whitespace, and becomes the run's single `' '` otherwise). -/
def collapseWs : List Char → List Char
  | [] => []
  | c :: cs =>
    if pyIsSpace c then
      match cs with
      | [] => [' ']
      | d :: _ => if pyIsSpace d then collapseWs cs else ' ' :: collapseWs cs
    else c :: collapseWs cs

/-- The whitespace normalisation performed at the start of
`DocumentProcessor.process`: `re.sub(r"\s+", " ", content).strip()`. -/
def normalizeWs (content : List Char) : List Char :=
  pyStrip (collapseWs content)

/-- Left-to-right scanner equivalent to
`re.findall(r"[^.!?\n]+[.!?\n]+", text)`: each match is a maximal run of
non-terminator characters followed by a maximal (non-empty) run of
terminators; terminator characters that no non-terminator run precedes are
skipped, and a trailing run with no terminator is dropped.  `pre` and
`terms` hold the reversed characters of the two phases of the match being
built. -/
def fsAux (pre terms : List Char) : List Char → List (List Char)
  | [] =>
    match terms with
    | [] => []
    | _ :: _ => [pre.reverse ++ terms.reverse]
  | c :: cs =>
    match terms with
    | [] =>
      if isTerm c then
        if pre = [] then fsAux [] [] cs else fsAux pre [c] cs
      else fsAux (c :: pre) [] cs
    | _ :: _ =>
      if isTerm c then fsAux pre (c :: terms) cs
      else (pre.reverse ++ terms.reverse) :: fsAux [c] [] cs

/-- `re.findall(r"[^.!?\n]+[.!?\n]+", text)` from `chunk_by_sentences`. -/
def findSentences (text : List Char) : List (List Char) :=
  fsAux [] [] text

/-- `DocumentProcessor.__init__` stores the two parameters; the source
performs no validation whatsoever (there is no fail-fast check relating
`chunk_size` and `chunk_overlap`). -/
structure DocumentProcessor where
  chunk_size : Int
  chunk_overlap : Int
deriving DecidableEq

/-- Constructing a `DocumentProcessor`.  Modelled with an `Option` result so
that "construction raises" would be expressible; the source constructor
cannot raise, so the result is always `some`. -/
def DocumentProcessor.init (chunkSize chunkOverlap : Int) : Option DocumentProcessor :=
  some ⟨chunkSize, chunkOverlap⟩

/-- The sentence-packing loop of `chunk_by_sentences`: greedily append
sentences to `current`; when adding the next sentence would exceed
`chunk_size` and `current` is non-empty, emit `current.strip()` and restart
from the overflowing sentence; finally emit `current.strip()` if non-empty. -/
def packLoop (chunkSize : Int) (current : List Char) :
    List (List Char) → List (List Char)
  | [] => if pyStrip current = [] then [] else [pyStrip current]
  | s :: ss =>
    if (current.length + s.length : Int) > chunkSize ∧ current ≠ [] then
      pyStrip current :: packLoop chunkSize s ss
    else packLoop chunkSize (current ++ s) ss

/-- `DocumentProcessor.chunk_by_sentences`: pack the found sentences (the
whole text when no sentence matches) starting from an empty `current`.
Note: `chunk_overlap` is never consulted by the algorithm. -/
def DocumentProcessor.chunkBySentences (p : DocumentProcessor) (text : List Char) :
    List (List Char) :=
  packLoop p.chunk_size []
    (if findSentences text = [] then [text] else findSentences text)

/-- One chunk dict produced by `DocumentProcessor.process` (the embedding is
added later). -/
structure Chunk where
  id : String
  content : List Char
  metadata : Metadata
deriving DecidableEq

/-- The chunk record built by `process` for the `idx`-th chunk. -/
def mkChunk (title : String) (total : Nat) (md : Metadata)
    (ic : Nat × List Char) : Chunk :=
  { id := title ++ "-chunk-" ++ toString ic.1
    content := ic.2
    metadata := { md with chunkIndex := some ic.1, totalChunks := some total } }

/-- `DocumentProcessor.process`: normalise whitespace, chunk by sentences,
and stamp each chunk with the id `f"{title}-chunk-{idx}"` and its positional
metadata. -/
def DocumentProcessor.process (p : DocumentProcessor) (content : List Char)
    (md : Metadata) : List Chunk :=
  let chunks := p.chunkBySentences (normalizeWs content)
  chunks.enum.map (mkChunk (md.title.getD "untitled") chunks.length md)

example :
    (DocumentProcessor.process ⟨500, 50⟩ "Hello. world".toList {}).map Chunk.content
      = ["Hello.".toList] := by decide
example : (normalizeWs "Hello. world".toList).length = 12 := by decide
example :
    DocumentProcessor.chunkBySentences ⟨1, 2⟩ "a. b.".toList
      = ["a.".toList, "b.".toList] := by decide

/-! ## Gemini streaming client (`src/ai-model/app/gemini_client.py`)

`GeminiClient.chat_stream` iterates over `GENERATION_MODELS`.  For each model
the interaction with the HTTP layer is abstracted as a `StreamOutcome`: the
open either raises, or produces a response with a status code; a `200`
response yields a list of extracted text fragments and may raise an
exception part-way through iteration (`midErr`).  The message list only
shapes the request body and is irrelevant to the fallback control flow, so
it is not modelled. -/

/-- What one model attempt observes from the HTTP layer. -/
inductive StreamOutcome
  | exn (msg : String)
  | resp (status : Nat) (tokens : List String) (midErr : Option String)
deriving DecidableEq

/-- The errors `chat_stream` can record and raise. -/
inductive GemError
  | statusError (model : String) (status : Nat)
  | exnError (msg : String)
  | allFailed
deriving DecidableEq

/-- The fallback loop of `chat_stream` over the configured models.  Returns
the full sequence of yielded text fragments together with the error finally
raised (`none` if the generator finished normally).  A non-200 status or an
exception records `last_error` and moves to the next model; completing the
iteration of a 200 response returns; an exception mid-iteration of a 200
response records `last_error` and moves on — the fragments already yielded
remain yielded. -/
def chatStreamGo : List (String × StreamOutcome) → Option GemError →
    List String × Option GemError
  | [], lastError => ([], some (lastError.getD GemError.allFailed))
  | (model, o) :: rest, _lastError =>
    match o with
    | StreamOutcome.exn m => chatStreamGo rest (some (GemError.exnError m))
    | StreamOutcome.resp status toks midErr =>
      if status = 200 then
        match midErr with
        | none => (toks, none)
        | some m =>
          let r := chatStreamGo rest (some (GemError.exnError m))
          (toks ++ r.1, r.2)
      else chatStreamGo rest (some (GemError.statusError model status))

/-- `GeminiClient.chat_stream`: raise immediately when the API key is unset,
otherwise run the fallback loop with `last_error = None`. -/
def chatStream (apiKey : String) (attempts : List (String × StreamOutcome)) :
    List String × Option GemError :=
  if apiKey = "" then ([], some (GemError.exnError "GEMINI_API_KEY not set"))
  else chatStreamGo attempts none

/-- An attempt fails (causing fallback to the next model) iff it raises at
open, returns a non-200 status, or raises mid-iteration. -/
def attemptFails : String × StreamOutcome → Bool
  | (_, StreamOutcome.exn _) => true
  | (_, StreamOutcome.resp status _ midErr) =>
    if status = 200 then midErr.isSome else true

/-- The `last_error` value an attempt records when it fails (`none` for a
fully successful attempt). -/
def attemptError : String × StreamOutcome → Option GemError
  | (_, StreamOutcome.exn m) => some (GemError.exnError m)
  | (model, StreamOutcome.resp status _ midErr) =>
    if status = 200 then midErr.map GemError.exnError
    else some (GemError.statusError model status)

/-- The fragments a failing 200-response attempt has already yielded before
its mid-iteration error (every other kind of attempt yields nothing before
falling through). -/
def attemptPartial : String × StreamOutcome → List String
  | (_, StreamOutcome.exn _) => []
  | (_, StreamOutcome.resp status toks midErr) =>
    if status = 200 then (if midErr.isSome then toks else []) else []

/-! ## SSE event streams (`src/ai-model/main.py` and `src/backend/main.py`) -/

/-- One server-sent event, by payload shape: the metadata object, a
content-delta fragment, an error fragment, or the `[DONE]` sentinel. -/
inductive Event
  | metadata (payload : String)
  | content (tok : String)
  | errorFrag (msg : String)
  | done
deriving DecidableEq

/-- A finite token stream: the fragments yielded in order, and the exception
(if any) the generator raises after them. -/
structure TokenStream where
  tokens : List String
  err : Option String
deriving DecidableEq

/-- `event_generator` from `src/ai-model/main.py` (`/api/chat`): emit the
metadata event, then one content event per token inside a `try`; on an
exception emit one error fragment; always finish with `[DONE]`. -/
def eventGenerator (meta : String) (ts : TokenStream) : List Event :=
  Event.metadata meta ::
    (ts.tokens.map Event.content ++
      (match ts.err with
       | some m => [Event.errorFrag m]
       | none => []) ++
      [Event.done])

/-- `event_stream` from `src/backend/main.py` (`/chat`): the aggregator run
(and artifact step) precede the metadata event and are not guarded against
exceptions, so a failure there emits nothing; the token loop has no
`try`/`except`, so a mid-stream exception aborts the generator — no error
fragment and no `[DONE]` are emitted in that case. -/
def eventStream (run : Except String (String × TokenStream)) : List Event :=
  match run with
  | Except.error _ => []
  | Except.ok (meta, ts) =>
    Event.metadata meta ::
      (ts.tokens.map Event.content ++
        (match ts.err with
         | some _ => []
         | none => [Event.done]))

/-- Recogniser for metadata events. -/
def isMetaEv : Event → Bool
  | Event.metadata _ => true
  | _ => false

/-- Recogniser for content-delta events. -/
def isContentEv : Event → Bool
  | Event.content _ => true
  | _ => false

/-- Recogniser for error fragments. -/
def isErrorEv : Event → Bool
  | Event.errorFrag _ => true
  | _ => false

/-- Recogniser for the `[DONE]` sentinel. -/
def isDoneEv : Event → Bool
  | Event.done => true
  | _ => false

/-! ## Backend retrieval merge (`src/backend/database.py`) -/

/-- `SourceDoc` from `src/backend/database.py`. -/
structure SourceDoc where
  id : String
  title : String
  category : String
  source : Option String
  content : String
  similarity : Option Int := none
deriving DecidableEq

/-- The merge/deduplication loop of `search_all`: keep the first document
seen for each id (`seen` plays the role of the `seen_ids` set). -/
def dedupGo (seen : List String) : List SourceDoc → List SourceDoc
  | [] => []
  | d :: ds =>
    if d.id ∈ seen then dedupGo seen ds
    else d :: dedupGo (d.id :: seen) ds

/-- The ids the loop has seen after consuming a list of documents. -/
def dedupSeen (seen : List String) : List SourceDoc → List String
  | [] => seen
  | d :: ds =>
    if d.id ∈ seen then dedupSeen seen ds
    else dedupSeen (d.id :: seen) ds

/-- Deduplication by id, first-seen-wins, starting from an empty seen set. -/
def dedupById (docs : List SourceDoc) : List SourceDoc :=
  dedupGo [] docs

/-- The merge step of `search_all`, parameterised by the result sets of the
three strategies: the keyword strategy is invoked (second component `true`)
exactly when both the vector and structured result sets are empty, in which
case its results replace the vector results; the merged list deduplicates
`vec_results + sql_results` by id. -/
def searchAllMerge (vec sql kw : List SourceDoc) : List SourceDoc × Bool :=
  let kwCalled := vec = [] ∧ sql = []
  let vec' := if vec = [] ∧ sql = [] then kw else vec
  (dedupById (vec' ++ sql), kwCalled)

/-! ## RAG service initialisation (`src/ai-model/app/rag_service.py`) -/

/-- One input document handed to `RAGService.initializeStore`. -/
structure InputDoc where
  content : List Char
  metadata : Metadata
deriving DecidableEq

/-- The per-chunk body of `RAGService.initializeStore`: embed the chunk and add
it to the store, counting successes; any exception (embedding call raising,
modelled by `embedFn` returning `none`, or `VectorStore.add` rejecting an
empty embedding) skips the chunk without incrementing the count. -/
def initChunkStep (embedFn : List Char → Option (List ℚ))
    (acc : Nat × List Document) (ch : Chunk) : Nat × List Document :=
  match embedFn ch.content with
  | none => acc
  | some emb =>
    match VectorStore.add acc.2 ⟨ch.id, ⟨ch.content⟩, ch.metadata, emb⟩ with
    | (some _, s) => (acc.1, s)
    | (none, s) => (acc.1 + 1, s)

/-- `RAGService.initializeStore`: clear the vector store, then process every
document with `doc_processor` and embed-and-add each chunk; returns the
number of chunks added together with the resulting store.  The initial
`store` argument models the store contents before the call; the first thing
the method does is `vector_store.clear()`. -/
def RAGService.initializeStore (embedFn : List Char → Option (List ℚ))
    (proc : DocumentProcessor) (documents : List InputDoc)
    (store : List Document) : Nat × List Document :=
  let _ := store
  let cleared : List Document := []
  documents.foldl
    (fun acc docData =>
      (proc.process docData.content docData.metadata).foldl
        (initChunkStep embedFn) acc)
    (0, cleared)

/-- A chunk is successfully inserted by `initialize` iff its embedding call
succeeds with a non-empty vector. -/
def chunkSucceeds (embedFn : List Char → Option (List ℚ)) (ch : Chunk) : Bool :=
  match embedFn ch.content with
  | none => false
  | some emb => emb ≠ []

/-- The chunks of one document whose embedding call succeeds with a
non-empty vector (exactly those `initialize` inserts and counts). -/
def successfulChunks (embedFn : List Char → Option (List ℚ))
    (proc : DocumentProcessor) (docData : InputDoc) : List Chunk :=
  (proc.process docData.content docData.metadata).filter (chunkSucceeds embedFn)

/-- The `Document` that `initialize` builds from a chunk and its embedding
result. -/
def chunkDoc (embedFn : List Char → Option (List ℚ)) (ch : Chunk) : Document :=
  ⟨ch.id, ⟨ch.content⟩, ch.metadata, (embedFn ch.content).getD []⟩

/-- A two-document input whose documents share the metadata title `"t"`, so
both produce a chunk with id `"t-chunk-0"`. -/
def dupTitleDocs : List InputDoc :=
  [⟨"a.".toList, { title := some "t" }⟩, ⟨"b.".toList, { title := some "t" }⟩]

/-- Concrete vector-strategy results for exercising the merge (ids 1, 2). -/
def vDocs : List SourceDoc :=
  [⟨"1", "t1", "c1", none, "x", none⟩,
   ⟨"2", "tv", "cv", none, "vec copy", some 90⟩]

/-- Concrete structured-strategy results sharing id 2 with `vDocs`. -/
def sDocs : List SourceDoc :=
  [⟨"2", "ts", "cs", none, "sql copy", none⟩,
   ⟨"3", "t3", "c3", none, "y", none⟩]

/-! # Theorems -/

/-! ## C5 — the guard does not reject "what is the capital of France" -/

/-- C5 counterexample: the query `"what is the capital of France"` is NOT
rejected by the scope guard — `chat_stream` does not take the out-of-scope
branch for it, contrary to the claim that the pipeline short-circuits. -/
theorem c5_counterexample_guard_accepts :
    chatRoute "what is the capital of France" ≠ ChatRoute.outOfScope := by
  decide

/-- C5 (amended): the query `"what is the capital of France"` has exactly 6
words, and queries of at most 6 words always pass the guard (it moreover
contains the vocabulary term `"what"`), so `chat_stream` proceeds to the RAG
pipeline rather than short-circuiting. -/
theorem c5_guard_passes_capital_of_france :
    guardWordCount "what is the capital of France" = 6 ∧
    isBitsRelated "what is the capital of France" = true ∧
    chatRoute "what is the capital of France" = ChatRoute.ragPipeline ∧
    listContains "what".toList (guardQuery "what is the capital of France") = true := by
  decide

/-! ## C9 — the guard's vocabulary test is substring containment -/

/-- C9: for queries of more than 6 words the guard's test is substring
containment of some vocabulary term in the lowercased query (not whole-word
matching), the interrogatives are themselves vocabulary terms, and any long
query containing one of them as a substring passes.  The final conjunct
exhibits substring (non-whole-word) matching concretely: a 7-word query
passes although none of its words is a vocabulary term (`"ta"` occurs inside
`"certain"`). -/
theorem c9_guard_substring_semantics (q : String) (h : 6 < guardWordCount q) :
    (isBitsRelated q = true ↔
      ∃ kw ∈ bitsKeywords, listContains kw.toList (guardQuery q) = true) ∧
    ("what" ∈ bitsKeywords ∧ "who" ∈ bitsKeywords ∧ "how" ∈ bitsKeywords ∧
      "when" ∈ bitsKeywords ∧ "where" ∈ bitsKeywords ∧ "which" ∈ bitsKeywords) ∧
    (listContains "what".toList (guardQuery q) = true → isBitsRelated q = true) ∧
    (isBitsRelated "there are seven certain answers given here" = true ∧
      ∀ w ∈ pySplit (guardQuery "there are seven certain answers given here"),
        (⟨w⟩ : String) ∉ bitsKeywords) := by
  have hguard : isBitsRelated q =
      bitsKeywords.any fun kw => listContains kw.toList (guardQuery q) := by
    unfold isBitsRelated
    rw [if_neg (by omega)]
  refine ⟨?_, by decide, ?_, by decide⟩
  · rw [hguard, List.any_eq_true]
  · intro hw
    rw [hguard, List.any_eq_true]
    exact ⟨"what", by decide, hw⟩

/-- C9 witness: a concrete 8-word query instantiating the theorem. -/
theorem c9_guard_substring_semantics_witness :
    6 < guardWordCount "please give me all info on ta duties" ∧
    ((isBitsRelated "please give me all info on ta duties" = true ↔
      ∃ kw ∈ bitsKeywords,
        listContains kw.toList (guardQuery "please give me all info on ta duties") = true) ∧
    ("what" ∈ bitsKeywords ∧ "who" ∈ bitsKeywords ∧ "how" ∈ bitsKeywords ∧
      "when" ∈ bitsKeywords ∧ "where" ∈ bitsKeywords ∧ "which" ∈ bitsKeywords) ∧
    (listContains "what".toList (guardQuery "please give me all info on ta duties") = true →
      isBitsRelated "please give me all info on ta duties" = true) ∧
    (isBitsRelated "there are seven certain answers given here" = true ∧
      ∀ w ∈ pySplit (guardQuery "there are seven certain answers given here"),
        (⟨w⟩ : String) ∉ bitsKeywords)) :=
  ⟨by decide, c9_guard_substring_semantics "please give me all info on ta duties" (by decide)⟩

/-! ## C8 — the chunker constructor performs no validation -/

/-- C8 counterexample: constructing `DocumentProcessor` with
`chunk_size = 1 ≤ 2 = chunk_overlap` does not raise; it produces an instance
that chunks text normally, contrary to the claimed fail-fast configuration
error. -/
theorem c8_counterexample_no_failfast :
    DocumentProcessor.init 1 2 = some ⟨1, 2⟩ ∧
    DocumentProcessor.chunkBySentences ⟨1, 2⟩ "a. b.".toList
      = ["a.".toList, "b.".toList] := by
  decide

/-- C8 (amended): the constructor performs no validation at all — for every
`chunk_size ≤ chunk_overlap` it succeeds, storing the parameters unchanged,
and the produced instance is usable (`chunk_overlap` is in fact never
consulted by the chunking algorithm). -/
theorem c8_init_never_fails (cs co : Int) (h : cs ≤ co) :
    DocumentProcessor.init cs co = some ⟨cs, co⟩ ∧
    ∀ co' text,
      DocumentProcessor.chunkBySentences ⟨cs, co⟩ text
        = DocumentProcessor.chunkBySentences ⟨cs, co'⟩ text := by
  exact ⟨rfl, fun _ _ => rfl⟩

/-- C8 witness: the theorem instantiated at `chunk_size = 1`,
`chunk_overlap = 2`. -/
theorem c8_init_never_fails_witness :
    (1 : Int) ≤ 2 ∧
    (DocumentProcessor.init 1 2 = some ⟨1, 2⟩ ∧
      ∀ co' text,
        DocumentProcessor.chunkBySentences ⟨1, 2⟩ text
          = DocumentProcessor.chunkBySentences ⟨1, co'⟩ text) :=
  ⟨by decide, c8_init_never_fails 1 2 (by decide)⟩

/-! ## C2 — streaming event ordering -/

/-- A list of content events contains no metadata event. -/
theorem filter_meta_map_content (toks : List String) :
    (toks.map Event.content).filter isMetaEv = [] := by
  induction toks with
  | nil => rfl
  | cons t ts ih => simp [List.filter, isMetaEv, ih]

/-- Filtering content events out of a list of content events is the
identity. -/
theorem filter_content_map_content (toks : List String) :
    (toks.map Event.content).filter isContentEv = toks.map Event.content := by
  induction toks with
  | nil => rfl
  | cons t ts ih => simp [List.filter, isContentEv, ih]

/-- A list of content events contains no `[DONE]` sentinel. -/
theorem filter_done_map_content (toks : List String) :
    (toks.map Event.content).filter isDoneEv = [] := by
  induction toks with
  | nil => rfl
  | cons t ts ih => simp [List.filter, isDoneEv, ih]

/-- A list of content events contains no error fragment. -/
theorem filter_error_map_content (toks : List String) :
    (toks.map Event.content).filter isErrorEv = [] := by
  induction toks with
  | nil => rfl
  | cons t ts ih => simp [List.filter, isErrorEv, ih]

/-- C2 counterexample: in the backend `event_stream`, a token stream that
raises mid-stream (here: before yielding anything) produces an event
sequence with no `[DONE]` sentinel and no error fragment — the claim that
the sentinel is emitted exactly once even on internal error is false for
this endpoint. -/
theorem c2_counterexample_backend_drops_sentinel :
    eventStream (Except.ok ("m", ⟨[], some "boom"⟩)) = [Event.metadata "m"] ∧
    Event.done ∉ eventStream (Except.ok ("m", ⟨[], some "boom"⟩)) := by
  decide

/-- C2 (amended): the ai-model `event_generator` satisfies the full
contract — exactly one metadata event, emitted first; the content fragments
in generation order; exactly one error fragment iff the token stream raised,
placed after all content; and exactly one `[DONE]`, always emitted last.
The backend `event_stream` satisfies it only when nothing raises: on a
mid-stream exception it emits neither an error fragment nor the sentinel,
and when the pre-metadata aggregation raises it emits nothing. -/
theorem c2_event_stream_ordering (meta : String) (ts : TokenStream)
    (run : Except String (String × TokenStream)) :
    ((eventGenerator meta ts).filter isMetaEv = [Event.metadata meta] ∧
      (eventGenerator meta ts).head? = some (Event.metadata meta)) ∧
    ((eventGenerator meta ts).filter isContentEv = ts.tokens.map Event.content) ∧
    ((eventGenerator meta ts).filter isDoneEv = [Event.done] ∧
      (eventGenerator meta ts).getLast? = some Event.done) ∧
    ((eventGenerator meta ts).filter isErrorEv =
      (match ts.err with
       | some m => [Event.errorFrag m]
       | none => [])) ∧
    (∀ m, ts.err = some m →
      eventGenerator meta ts =
        Event.metadata meta ::
          (ts.tokens.map Event.content ++ [Event.errorFrag m, Event.done])) ∧
    (∀ m' ts', run = Except.ok (m', ts') → ts'.err = none →
      eventStream run =
        Event.metadata m' :: (ts'.tokens.map Event.content ++ [Event.done])) ∧
    (∀ m' ts' e, run = Except.ok (m', ts') → ts'.err = some e →
      eventStream run = Event.metadata m' :: ts'.tokens.map Event.content ∧
      Event.done ∉ eventStream run ∧
      ∀ x, Event.errorFrag x ∉ eventStream run) ∧
    (∀ e, run = Except.error e → eventStream run = []) := by
  refine ⟨⟨?_, rfl⟩, ?_, ⟨?_, ?_⟩, ?_, ?_, ?_, ?_, ?_⟩
  · simp only [eventGenerator, List.filter_cons, List.filter_append,
      filter_meta_map_content]
    cases ts.err <;> simp [isMetaEv]
  · simp only [eventGenerator, List.filter_cons, List.filter_append,
      filter_content_map_content]
    cases ts.err <;> simp [isContentEv]
  · simp only [eventGenerator, List.filter_cons, List.filter_append,
      filter_done_map_content]
    cases ts.err <;> simp [isDoneEv]
  · have hsplit : eventGenerator meta ts =
        (Event.metadata meta ::
          (ts.tokens.map Event.content ++
            (match ts.err with
             | some m => [Event.errorFrag m]
             | none => []))) ++ [Event.done] := by
      simp [eventGenerator]
    rw [hsplit, List.getLast?_concat]
  · simp only [eventGenerator, List.filter_cons, List.filter_append,
      filter_error_map_content]
    cases ts.err <;> simp [isErrorEv]
  · intro m hm
    simp [eventGenerator, hm]
  · intro m' ts' hrun herr
    simp [eventStream, hrun, herr]
  · intro m' ts' e hrun herr
    refine ⟨by simp [eventStream, hrun, herr], ?_, ?_⟩
    · simp only [eventStream, hrun, herr, List.append_nil]
      intro hmem
      rcases List.mem_cons.mp hmem with h | h
      · exact Event.noConfusion h
      · obtain ⟨t, -, ht⟩ := List.mem_map.mp h
        exact Event.noConfusion ht
    · intro x
      simp only [eventStream, hrun, herr, List.append_nil]
      intro hmem
      rcases List.mem_cons.mp hmem with h | h
      · exact Event.noConfusion h
      · obtain ⟨t, -, ht⟩ := List.mem_map.mp h
        exact Event.noConfusion ht
  · intro e hrun
    simp [eventStream, hrun]

/-- C2 witness: the theorem instantiated at a stream that yields one token
and then raises, on both endpoints. -/
theorem c2_event_stream_ordering_witness :
    ((eventGenerator "m" ⟨["tok"], some "boom"⟩).filter isMetaEv
        = [Event.metadata "m"] ∧
      (eventGenerator "m" ⟨["tok"], some "boom"⟩).head?
        = some (Event.metadata "m")) ∧
    ((eventGenerator "m" ⟨["tok"], some "boom"⟩).filter isContentEv
      = ["tok"].map Event.content) ∧
    ((eventGenerator "m" ⟨["tok"], some "boom"⟩).filter isDoneEv = [Event.done] ∧
      (eventGenerator "m" ⟨["tok"], some "boom"⟩).getLast? = some Event.done) ∧
    ((eventGenerator "m" ⟨["tok"], some "boom"⟩).filter isErrorEv
      = [Event.errorFrag "boom"]) ∧
    (∀ m, (some "boom" : Option String) = some m →
      eventGenerator "m" ⟨["tok"], some "boom"⟩ =
        Event.metadata "m" ::
          (["tok"].map Event.content ++ [Event.errorFrag m, Event.done])) ∧
    (∀ m' ts',
      (Except.ok ("m", ⟨["tok"], some "boom"⟩) :
          Except String (String × TokenStream)) = Except.ok (m', ts') →
      ts'.err = none →
      eventStream (Except.ok ("m", ⟨["tok"], some "boom"⟩)) =
        Event.metadata m' :: (ts'.tokens.map Event.content ++ [Event.done])) ∧
    (∀ m' ts' e,
      (Except.ok ("m", ⟨["tok"], some "boom"⟩) :
          Except String (String × TokenStream)) = Except.ok (m', ts') →
      ts'.err = some e →
      eventStream (Except.ok ("m", ⟨["tok"], some "boom"⟩)) =
        Event.metadata m' :: ts'.tokens.map Event.content ∧
      Event.done ∉ eventStream (Except.ok ("m", ⟨["tok"], some "boom"⟩)) ∧
      ∀ x, Event.errorFrag x ∉
        eventStream (Except.ok ("m", ⟨["tok"], some "boom"⟩))) ∧
    (∀ e,
      (Except.ok ("m", ⟨["tok"], some "boom"⟩) :
          Except String (String × TokenStream)) = Except.error e →
      eventStream (Except.ok ("m", ⟨["tok"], some "boom"⟩)) = []) :=
  c2_event_stream_ordering "m" ⟨["tok"], some "boom"⟩
    (Except.ok ("m", ⟨["tok"], some "boom"⟩))

/-! ## C4 — Gemini model fallback -/

/-- Unfolding equation: an attempt that raises at open. -/
theorem chatStreamGo_exn (model m : String) (rest : List (String × StreamOutcome))
    (lastError : Option GemError) :
    chatStreamGo ((model, StreamOutcome.exn m) :: rest) lastError
      = chatStreamGo rest (some (GemError.exnError m)) := rfl

/-- Unfolding equation: a fully successful attempt. -/
theorem chatStreamGo_ok (model : String) (toks : List String)
    (rest : List (String × StreamOutcome)) (lastError : Option GemError) :
    chatStreamGo ((model, StreamOutcome.resp 200 toks none) :: rest) lastError
      = (toks, none) := by
  simp [chatStreamGo]

/-- Unfolding equation: a 200 response that raises mid-iteration. -/
theorem chatStreamGo_mid (model : String) (toks : List String) (m : String)
    (rest : List (String × StreamOutcome)) (lastError : Option GemError) :
    chatStreamGo ((model, StreamOutcome.resp 200 toks (some m)) :: rest) lastError
      = (toks ++ (chatStreamGo rest (some (GemError.exnError m))).1,
         (chatStreamGo rest (some (GemError.exnError m))).2) := by
  simp [chatStreamGo]

/-- Unfolding equation: a non-200 response. -/
theorem chatStreamGo_status (model : String) (status : Nat) (toks : List String)
    (midErr : Option String) (rest : List (String × StreamOutcome))
    (lastError : Option GemError) (hs : status ≠ 200) :
    chatStreamGo ((model, StreamOutcome.resp status toks midErr) :: rest) lastError
      = chatStreamGo rest (some (GemError.statusError model status)) := by
  simp [chatStreamGo, hs]

/-- The fallback loop raises iff every attempt fails (raises at open,
returns a non-200 status, or raises mid-iteration of an opened stream). -/
theorem chatStreamGo_isSome_iff (attempts : List (String × StreamOutcome)) :
    ∀ lastError, (chatStreamGo attempts lastError).2.isSome = true ↔
      ∀ a ∈ attempts, attemptFails a = true := by
  induction attempts with
  | nil => intro lastError; simp [chatStreamGo]
  | cons a rest ih =>
    intro lastError
    rw [List.forall_mem_cons]
    obtain ⟨model, o⟩ := a
    cases o with
    | exn m =>
      rw [chatStreamGo_exn, ih]
      simp [attemptFails]
    | resp status toks midErr =>
      by_cases hs : status = 200
      · subst hs
        cases midErr with
        | none =>
          rw [chatStreamGo_ok]
          simp [attemptFails]
        | some m =>
          rw [chatStreamGo_mid]
          show (chatStreamGo rest (some (GemError.exnError m))).2.isSome = true ↔ _
          rw [ih]
          simp [attemptFails]
      · rw [chatStreamGo_status _ _ _ _ _ _ hs, ih]
        simp [attemptFails, hs]

/-- When every attempt fails, the error finally raised is the error recorded
by the last attempt, whatever `last_error` held before. -/
theorem chatStreamGo_all_fail (pre : List (String × StreamOutcome))
    (last : String × StreamOutcome) :
    ∀ lastError, (∀ a ∈ pre ++ [last], attemptFails a = true) →
      (chatStreamGo (pre ++ [last]) lastError).2 = attemptError last := by
  induction pre with
  | nil =>
    intro lastError hall
    have hlast : attemptFails last = true := hall last (by simp)
    obtain ⟨model, o⟩ := last
    cases o with
    | exn m =>
      rw [List.nil_append, chatStreamGo_exn]
      simp [chatStreamGo, attemptError]
    | resp status toks midErr =>
      by_cases hs : status = 200
      · subst hs
        cases midErr with
        | none => simp [attemptFails] at hlast
        | some m =>
          rw [List.nil_append, chatStreamGo_mid]
          simp [chatStreamGo, attemptError]
      · rw [List.nil_append, chatStreamGo_status _ _ _ _ _ _ hs]
        simp [chatStreamGo, attemptError, hs]
  | cons p ps ih =>
    intro lastError hall
    have hrest : ∀ a ∈ ps ++ [last], attemptFails a = true := by
      intro a ha
      exact hall a (List.mem_cons_of_mem _ ha)
    have hp : attemptFails p = true := hall p (by simp)
    obtain ⟨model, o⟩ := p
    cases o with
    | exn m =>
      rw [List.cons_append, chatStreamGo_exn]
      exact ih _ hrest
    | resp status ptoks midErr =>
      by_cases hs : status = 200
      · subst hs
        cases midErr with
        | none => simp [attemptFails] at hp
        | some m =>
          rw [List.cons_append, chatStreamGo_mid]
          exact ih _ hrest
      · rw [List.cons_append, chatStreamGo_status _ _ _ _ _ _ hs]
        exact ih _ hrest

/-- Once an attempt fully succeeds (opens with status 200 and is iterated to
completion without error), the attempts after it are never examined. -/
theorem chatStreamGo_stops_at_success (pre : List (String × StreamOutcome))
    (a : String × StreamOutcome) (rest rest' : List (String × StreamOutcome)) :
    ∀ lastError, attemptFails a = false →
      chatStreamGo (pre ++ a :: rest) lastError
        = chatStreamGo (pre ++ a :: rest') lastError := by
  induction pre with
  | nil =>
    intro lastError ha
    obtain ⟨model, o⟩ := a
    cases o with
    | exn m => simp [attemptFails] at ha
    | resp status toks midErr =>
      by_cases hs : status = 200
      · subst hs
        cases midErr with
        | none =>
          rw [List.nil_append, chatStreamGo_ok, List.nil_append, chatStreamGo_ok]
        | some m => simp [attemptFails] at ha
      · simp [attemptFails, hs] at ha
  | cons p ps ih =>
    intro lastError ha
    obtain ⟨model, o⟩ := p
    cases o with
    | exn m =>
      rw [List.cons_append, chatStreamGo_exn, List.cons_append, chatStreamGo_exn]
      exact ih _ ha
    | resp status ptoks midErr =>
      by_cases hs : status = 200
      · subst hs
        cases midErr with
        | none =>
          rw [List.cons_append, chatStreamGo_ok, List.cons_append, chatStreamGo_ok]
        | some m =>
          rw [List.cons_append, chatStreamGo_mid, List.cons_append, chatStreamGo_mid]
          rw [ih _ ha]
      · rw [List.cons_append, chatStreamGo_status _ _ _ _ _ _ hs,
          List.cons_append, chatStreamGo_status _ _ _ _ _ _ hs]
        exact ih _ ha

/-- When every attempt before the first fully-successful one fails, the
yielded fragments are the partial fragments of the failing attempts followed
by the successful model's fragments, and no error is raised. -/
theorem chatStreamGo_success_tokens (pre : List (String × StreamOutcome))
    (model : String) (toks : List String) (rest : List (String × StreamOutcome)) :
    ∀ lastError, (∀ p ∈ pre, attemptFails p = true) →
      chatStreamGo (pre ++ (model, StreamOutcome.resp 200 toks none) :: rest) lastError
        = ((pre.map attemptPartial).flatten ++ toks, none) := by
  induction pre with
  | nil =>
    intro lastError _
    rw [List.nil_append, chatStreamGo_ok]
    simp
  | cons p ps ih =>
    intro lastError hall
    have hp : attemptFails p = true := hall p (by simp)
    have hrest : ∀ x ∈ ps, attemptFails x = true :=
      fun x hx => hall x (List.mem_cons_of_mem _ hx)
    obtain ⟨pm, o⟩ := p
    cases o with
    | exn m =>
      rw [List.cons_append, chatStreamGo_exn, ih _ hrest]
      simp [attemptPartial]
    | resp status ptoks midErr =>
      by_cases hs : status = 200
      · subst hs
        cases midErr with
        | none => simp [attemptFails] at hp
        | some m =>
          rw [List.cons_append, chatStreamGo_mid, ih _ hrest]
          simp [attemptPartial]
      · rw [List.cons_append, chatStreamGo_status _ _ _ _ _ _ hs, ih _ hrest]
        simp [attemptPartial, hs]

/-- C4 counterexample: with a valid key, a first model whose stream opens
with status 200 but raises mid-iteration does NOT terminate the fallback
loop — the second model is tried (its fragment `"b"` is yielded); and if
such a model is the only one configured, an error is raised even though its
stream was successfully opened (2xx).  Both contradict the claim that a 2xx
open terminates the loop and that an error is raised only when every model
fails at open. -/
theorem c4_counterexample_midstream_fallback :
    chatStream "key"
        [("gemini-2.5-flash", StreamOutcome.resp 200 ["a"] (some "boom")),
         ("gemini-2.0-flash", StreamOutcome.resp 200 ["b"] none)]
      = (["a", "b"], none) ∧
    chatStream "key" [("gemini-2.5-flash", StreamOutcome.resp 200 [] (some "boom"))]
      = ([], some (GemError.exnError "boom")) := by
  constructor <;> rfl

/-- C4 (amended): with a configured API key, `chat_stream` tries the models
in order, moving to the next model on any error — non-200 status, exception
at open, or an exception while iterating an already-opened stream (whose
already-yielded fragments remain yielded); an error is raised iff every
model fails in this sense, and it is the error recorded by the
last-attempted model (the fixed `allFailed` error when no model is
configured); once a model's stream opens with status 200 and is iterated to
completion, the loop stops without examining subsequent models, even when
zero fragments were yielded. -/
theorem c4_chat_stream_fallback (apiKey : String) (hkey : apiKey ≠ "") :
    (∀ attempts, ((chatStream apiKey attempts).2.isSome = true ↔
        ∀ a ∈ attempts, attemptFails a = true)) ∧
    (∀ pre last, (∀ a ∈ pre ++ [last], attemptFails a = true) →
        (chatStream apiKey (pre ++ [last])).2 = attemptError last) ∧
    ((chatStream apiKey []).2 = some GemError.allFailed) ∧
    (∀ pre a rest rest', attemptFails a = false →
        chatStream apiKey (pre ++ a :: rest)
          = chatStream apiKey (pre ++ a :: rest')) ∧
    (∀ pre model toks rest, (∀ p ∈ pre, attemptFails p = true) →
        chatStream apiKey (pre ++ (model, StreamOutcome.resp 200 toks none) :: rest)
          = ((pre.map attemptPartial).flatten ++ toks, none)) := by
  refine ⟨?_, ?_, ?_, ?_, ?_⟩
  · intro attempts
    simp only [chatStream, if_neg hkey]
    exact chatStreamGo_isSome_iff attempts none
  · intro pre last hall
    simp only [chatStream, if_neg hkey]
    exact chatStreamGo_all_fail pre last none hall
  · simp [chatStream, if_neg hkey, chatStreamGo]
  · intro pre a rest rest' ha
    simp only [chatStream, if_neg hkey]
    exact chatStreamGo_stops_at_success pre a rest rest' none ha
  · intro pre model toks rest hall
    simp only [chatStream, if_neg hkey]
    exact chatStreamGo_success_tokens pre model toks rest none hall

/-- C4 witness: the theorem instantiated at a concrete key and a concrete
attempt list in which the first model returns HTTP 500 and the second
succeeds with no tokens. -/
theorem c4_chat_stream_fallback_witness :
    ("key" : String) ≠ "" ∧
    (∀ p ∈ [("gemini-2.5-flash", StreamOutcome.resp 500 [] none)],
        attemptFails p = true) ∧
    chatStream "key"
        ([("gemini-2.5-flash", StreamOutcome.resp 500 [] none)] ++
          ("gemini-2.0-flash", StreamOutcome.resp 200 [] none) :: [])
      = (([("gemini-2.5-flash", StreamOutcome.resp 500 [] none)].map
            attemptPartial).flatten ++ [], none) :=
  ⟨by decide, by decide,
    (c4_chat_stream_fallback "key" (by decide)).2.2.2.2
      [("gemini-2.5-flash", StreamOutcome.resp 500 [] none)]
      "gemini-2.0-flash" [] [] (by decide)⟩

/-! ## C7 — `VectorStore.add` -/

/-- After `insertOrReplace store d`, looking up `d.id` finds `d`. -/
theorem get_insertOrReplace_self (store : List Document) (d : Document) :
    VectorStore.get (insertOrReplace store d) d.id = some d := by
  induction store with
  | nil => simp [insertOrReplace, VectorStore.get, List.find?]
  | cons x xs ih =>
    by_cases hx : x.id = d.id
    · simp [insertOrReplace, hx, VectorStore.get, List.find?]
    · simp only [insertOrReplace, if_neg hx]
      simp only [VectorStore.get, List.find?] at ih ⊢
      rw [show (decide (x.id = d.id)) = false from by simp [hx]]
      exact ih

/-- `insertOrReplace store d` does not disturb lookups of other ids. -/
theorem get_insertOrReplace_other (store : List Document) (d : Document)
    (i : String) (h : i ≠ d.id) :
    VectorStore.get (insertOrReplace store d) i = VectorStore.get store i := by
  induction store with
  | nil =>
    simp only [insertOrReplace, VectorStore.get, List.find?]
    rw [show (decide (d.id = i)) = false from decide_eq_false (Ne.symm h)]
  | cons x xs ih =>
    by_cases hx : x.id = d.id
    · simp only [insertOrReplace, if_pos hx, VectorStore.get, List.find?]
      rw [show (decide (d.id = i)) = false from decide_eq_false (Ne.symm h),
        show (decide (x.id = i)) = false from
          decide_eq_false (by rw [hx]; exact Ne.symm h)]
    · simp only [insertOrReplace, if_neg hx, VectorStore.get, List.find?] at ih ⊢
      cases hxi : decide (x.id = i) with
      | true => rfl
      | false => exact ih

/-- C7: `VectorStore.add` fails (raising `ValueError`) iff the document's
embedding is empty; on failure the store is unchanged; otherwise it inserts
the document keyed by its id — the new document is found under its id,
every other id resolves exactly as before, and an existing document with
the same id is thereby overwritten. -/
theorem c7_add_validation (store : List Document) (d : Document) :
    ((VectorStore.add store d).1.isSome = true ↔ d.embedding = []) ∧
    (d.embedding = [] → (VectorStore.add store d).2 = store) ∧
    (d.embedding ≠ [] →
      (VectorStore.add store d).1 = none ∧
      VectorStore.get (VectorStore.add store d).2 d.id = some d ∧
      ∀ i, i ≠ d.id →
        VectorStore.get (VectorStore.add store d).2 i = VectorStore.get store i) := by
  refine ⟨?_, ?_, ?_⟩
  · by_cases he : d.embedding = [] <;> simp [VectorStore.add, he]
  · intro he; simp [VectorStore.add, he]
  · intro he
    refine ⟨by simp [VectorStore.add, he], ?_, ?_⟩
    · simp only [VectorStore.add, if_neg he]
      exact get_insertOrReplace_self store d
    · intro i hi
      simp only [VectorStore.add, if_neg he]
      exact get_insertOrReplace_other store d i hi

/-- C7 witness: adding a document with a non-empty embedding over a store
holding a previous version of the same id overwrites it. -/
theorem c7_add_validation_witness :
    (⟨"c1", "new", {}, [2]⟩ : Document).embedding ≠ [] ∧
    ((VectorStore.add [⟨"c1", "old", {}, [1]⟩] ⟨"c1", "new", {}, [2]⟩).1 = none ∧
      VectorStore.get (VectorStore.add [⟨"c1", "old", {}, [1]⟩]
          ⟨"c1", "new", {}, [2]⟩).2 (⟨"c1", "new", {}, [2]⟩ : Document).id
        = some ⟨"c1", "new", {}, [2]⟩ ∧
      ∀ i, i ≠ (⟨"c1", "new", {}, [2]⟩ : Document).id →
        VectorStore.get (VectorStore.add [⟨"c1", "old", {}, [1]⟩]
            ⟨"c1", "new", {}, [2]⟩).2 i
          = VectorStore.get [⟨"c1", "old", {}, [1]⟩] i) :=
  ⟨by decide,
    (c7_add_validation [⟨"c1", "old", {}, [1]⟩] ⟨"c1", "new", {}, [2]⟩).2.2
      (by decide)⟩

/-! ## C3 — backend `search_all` merge -/

/-- The dedup loop distributes over append, threading its seen set. -/
theorem dedupGo_append (l₁ : List SourceDoc) :
    ∀ (seen : List String) (l₂ : List SourceDoc),
      dedupGo seen (l₁ ++ l₂) = dedupGo seen l₁ ++ dedupGo (dedupSeen seen l₁) l₂ := by
  induction l₁ with
  | nil => intro seen l₂; simp [dedupGo, dedupSeen]
  | cons d ds ih =>
    intro seen l₂
    by_cases hd : d.id ∈ seen
    · simp [dedupGo, dedupSeen, hd, ih]
    · simp [dedupGo, dedupSeen, hd, ih]

/-- Membership in the accumulated seen set. -/
theorem mem_dedupSeen (l : List SourceDoc) :
    ∀ (seen : List String) (x : String),
      x ∈ dedupSeen seen l ↔ x ∈ seen ∨ x ∈ l.map SourceDoc.id := by
  induction l with
  | nil => intro seen x; simp [dedupSeen]
  | cons d ds ih =>
    intro seen x
    by_cases hd : d.id ∈ seen
    · rw [show dedupSeen seen (d :: ds) = dedupSeen seen ds from by
        simp [dedupSeen, hd]]
      rw [ih]
      simp only [List.map_cons, List.mem_cons]
      constructor
      · rintro (h | h)
        · exact Or.inl h
        · exact Or.inr (Or.inr h)
      · rintro (h | rfl | h)
        · exact Or.inl h
        · exact Or.inl hd
        · exact Or.inr h
    · rw [show dedupSeen seen (d :: ds) = dedupSeen (d.id :: seen) ds from by
        simp [dedupSeen, hd]]
      rw [ih]
      simp only [List.mem_cons, List.map_cons]
      constructor
      · rintro ((rfl | h) | h)
        · exact Or.inr (Or.inl rfl)
        · exact Or.inl h
        · exact Or.inr (Or.inr h)
      · rintro (h | rfl | h)
        · exact Or.inl (Or.inr h)
        · exact Or.inl (Or.inl rfl)
        · exact Or.inr h

/-- Every document the dedup loop keeps has an unseen id, comes from the
input, and is the FIRST input entry carrying its id. -/
theorem dedupGo_mem (l : List SourceDoc) :
    ∀ (seen : List String) (d : SourceDoc), d ∈ dedupGo seen l →
      d.id ∉ seen ∧ d ∈ l ∧ l.find? (fun x => x.id = d.id) = some d := by
  induction l with
  | nil => intro seen d hd; simp [dedupGo] at hd
  | cons x xs ih =>
    intro seen d hd
    by_cases hx : x.id ∈ seen
    · rw [show dedupGo seen (x :: xs) = dedupGo seen xs from by
        simp [dedupGo, hx]] at hd
      obtain ⟨h1, h2, h3⟩ := ih seen d hd
      refine ⟨h1, List.mem_cons_of_mem _ h2, ?_⟩
      rw [List.find?_cons_of_neg, h3]
      simp only [decide_eq_true_eq]
      intro he
      exact h1 (he ▸ hx)
    · rw [show dedupGo seen (x :: xs) = x :: dedupGo (x.id :: seen) xs from by
        simp [dedupGo, hx]] at hd
      rcases List.mem_cons.mp hd with rfl | hmem
      · refine ⟨hx, List.mem_cons_self _ _, ?_⟩
        rw [List.find?_cons_of_pos]
        simp
      · obtain ⟨h1, h2, h3⟩ := ih _ d hmem
        have hne : d.id ≠ x.id := fun he => h1 (he ▸ List.mem_cons_self _ _)
        refine ⟨fun hs => h1 (List.mem_cons_of_mem _ hs),
          List.mem_cons_of_mem _ h2, ?_⟩
        rw [List.find?_cons_of_neg, h3]
        simp only [decide_eq_true_eq]
        exact fun he => hne he.symm

/-- The dedup loop emits pairwise-distinct ids. -/
theorem dedupGo_nodup (l : List SourceDoc) :
    ∀ (seen : List String), ((dedupGo seen l).map SourceDoc.id).Nodup := by
  induction l with
  | nil => intro seen; simp [dedupGo]
  | cons x xs ih =>
    intro seen
    by_cases hx : x.id ∈ seen
    · rw [show dedupGo seen (x :: xs) = dedupGo seen xs from by
        simp [dedupGo, hx]]
      exact ih seen
    · rw [show dedupGo seen (x :: xs) = x :: dedupGo (x.id :: seen) xs from by
        simp [dedupGo, hx]]
      simp only [List.map_cons, List.nodup_cons]
      refine ⟨?_, ih _⟩
      intro hmem
      obtain ⟨d, hd, hid⟩ := List.mem_map.mp hmem
      exact (dedupGo_mem xs _ d hd).1 (hid ▸ List.mem_cons_self _ _)

/-- Every input id survives deduplication (unless already seen). -/
theorem dedupGo_complete (l : List SourceDoc) :
    ∀ (seen : List String) (i : String), i ∈ l.map SourceDoc.id →
      i ∈ seen ∨ ∃ d ∈ dedupGo seen l, d.id = i := by
  induction l with
  | nil => intro seen i hi; simp at hi
  | cons x xs ih =>
    intro seen i hi
    rcases List.mem_cons.mp hi with rfl | hxs
    · by_cases hx : x.id ∈ seen
      · exact Or.inl hx
      · refine Or.inr ⟨x, ?_, rfl⟩
        rw [show dedupGo seen (x :: xs) = x :: dedupGo (x.id :: seen) xs from by
          simp [dedupGo, hx]]
        exact List.mem_cons_self _ _
    · by_cases hx : x.id ∈ seen
      · rcases ih seen i hxs with h | ⟨d, hd, hdi⟩
        · exact Or.inl h
        · refine Or.inr ⟨d, ?_, hdi⟩
          rw [show dedupGo seen (x :: xs) = dedupGo seen xs from by
            simp [dedupGo, hx]]
          exact hd
      · rcases ih (x.id :: seen) i hxs with h | ⟨d, hd, hdi⟩
        · rcases List.mem_cons.mp h with rfl | hseen
          · refine Or.inr ⟨x, ?_, rfl⟩
            rw [show dedupGo seen (x :: xs) = x :: dedupGo (x.id :: seen) xs from by
              simp [dedupGo, hx]]
            exact List.mem_cons_self _ _
          · exact Or.inl hseen
        · refine Or.inr ⟨d, ?_, hdi⟩
          rw [show dedupGo seen (x :: xs) = x :: dedupGo (x.id :: seen) xs from by
            simp [dedupGo, hx]]
          exact List.mem_cons_of_mem _ hd

/-- C3: the merged result of `search_all` has pairwise-distinct ids; the
keyword strategy is invoked iff both the vector and structured strategies
returned empty sets; and (when no keyword fallback happens) the merged list
is the deduplicated vector results followed by the structured-only results,
each merged entry is the first occurrence of its id in
`vec_results + sql_results` (so an id occurring in both strategies keeps the
vector copy), and exactly the ids of the two strategy results survive. -/
theorem c3_search_all_merge (vec sql kw : List SourceDoc) :
    ((searchAllMerge vec sql kw).1.map SourceDoc.id).Nodup ∧
    ((searchAllMerge vec sql kw).2 = true ↔ (vec = [] ∧ sql = [])) ∧
    (¬(vec = [] ∧ sql = []) →
      (searchAllMerge vec sql kw).1
          = dedupById vec ++ dedupGo (dedupSeen [] vec) sql ∧
      (∀ d ∈ dedupGo (dedupSeen [] vec) sql,
          d ∈ sql ∧ d.id ∉ vec.map SourceDoc.id) ∧
      (∀ d ∈ (searchAllMerge vec sql kw).1,
          (vec ++ sql).find? (fun x => x.id = d.id) = some d ∧
          (d.id ∈ vec.map SourceDoc.id → d ∈ vec)) ∧
      (∀ i, i ∈ (searchAllMerge vec sql kw).1.map SourceDoc.id ↔
          (i ∈ vec.map SourceDoc.id ∨ i ∈ sql.map SourceDoc.id))) := by
  have hfst : ∀ h : ¬(vec = [] ∧ sql = []),
      (searchAllMerge vec sql kw).1 = dedupGo [] (vec ++ sql) := by
    intro h
    simp only [searchAllMerge, dedupById, if_neg h]
  refine ⟨?_, ?_, ?_⟩
  · by_cases h : vec = [] ∧ sql = []
    · simp only [searchAllMerge, dedupById, if_pos h]
      exact dedupGo_nodup _ _
    · simp only [searchAllMerge, dedupById, if_neg h]
      exact dedupGo_nodup _ _
  · simp only [searchAllMerge]
    exact decide_eq_true_iff
  · intro h
    refine ⟨?_, ?_, ?_, ?_⟩
    · rw [hfst h, dedupGo_append, dedupById]
    · intro d hd
      obtain ⟨h1, h2, -⟩ := dedupGo_mem sql _ d hd
      refine ⟨h2, fun hv => h1 ?_⟩
      rw [mem_dedupSeen]
      exact Or.inr hv
    · intro d hd
      rw [hfst h] at hd
      obtain ⟨-, hmem, hfind⟩ := dedupGo_mem _ _ d hd
      refine ⟨hfind, fun hv => ?_⟩
      rw [dedupGo_append] at hd
      rcases List.mem_append.mp hd with hleft | hright
      · exact ((dedupGo_mem vec _ d hleft).2).1
      · exfalso
        have := (dedupGo_mem sql _ d hright).1
        rw [mem_dedupSeen] at this
        exact this (Or.inr hv)
    · intro i
      constructor
      · intro hi
        obtain ⟨d, hd, hid⟩ := List.mem_map.mp hi
        rw [hfst h] at hd
        have hmem := ((dedupGo_mem _ _ d hd).2).1
        rcases List.mem_append.mp hmem with hv | hs
        · exact Or.inl (hid ▸ List.mem_map_of_mem _ hv)
        · exact Or.inr (hid ▸ List.mem_map_of_mem _ hs)
      · intro hi
        have hin : i ∈ (vec ++ sql).map SourceDoc.id := by
          rw [List.map_append, List.mem_append]
          exact hi
        rcases dedupGo_complete (vec ++ sql) [] i hin with hfalse | ⟨d, hd, hdi⟩
        · simp at hfalse
        · rw [hfst h]
          exact hdi ▸ List.mem_map_of_mem _ hd

/-- C3 witness: a vector set and a structured set sharing the id `"2"`; the
merged list keeps the vector copy first and appends the structured-only
document. -/
theorem c3_search_all_merge_witness :
    ¬(vDocs = [] ∧ sDocs = []) ∧
    ((searchAllMerge vDocs sDocs []).1
        = dedupById vDocs ++ dedupGo (dedupSeen [] vDocs) sDocs ∧
      (∀ d ∈ dedupGo (dedupSeen [] vDocs) sDocs,
          d ∈ sDocs ∧ d.id ∉ vDocs.map SourceDoc.id) ∧
      (∀ d ∈ (searchAllMerge vDocs sDocs []).1,
          (vDocs ++ sDocs).find? (fun x => x.id = d.id) = some d ∧
          (d.id ∈ vDocs.map SourceDoc.id → d ∈ vDocs)) ∧
      (∀ i, i ∈ ((searchAllMerge vDocs sDocs []).1).map SourceDoc.id ↔
          (i ∈ vDocs.map SourceDoc.id ∨ i ∈ sDocs.map SourceDoc.id))) :=
  ⟨by decide, (c3_search_all_merge vDocs sDocs []).2.2 (by decide)⟩

/-! ## C10 — `RAGService.initializeStore` -/

/-- The per-chunk fold of `initialize` counts exactly the successful chunks
and inserts exactly their documents, in order. -/
theorem foldl_initChunkStep (embedFn : List Char → Option (List ℚ))
    (chunks : List Chunk) :
    ∀ (n : Nat) (st : List Document),
      chunks.foldl (initChunkStep embedFn) (n, st)
        = (n + (chunks.filter (chunkSucceeds embedFn)).length,
           (chunks.filter (chunkSucceeds embedFn)).foldl
             (fun s ch => insertOrReplace s (chunkDoc embedFn ch)) st) := by
  induction chunks with
  | nil => intro n st; simp
  | cons ch rest ih =>
    intro n st
    rw [List.foldl_cons]
    cases hemb : embedFn ch.content with
    | none =>
      have hsucc : chunkSucceeds embedFn ch = false := by
        simp [chunkSucceeds, hemb]
      rw [show initChunkStep embedFn (n, st) ch = (n, st) from by
        simp [initChunkStep, hemb]]
      rw [List.filter_cons, hsucc]
      simpa using ih n st
    | some emb =>
      by_cases he : emb = []
      · subst he
        have hsucc : chunkSucceeds embedFn ch = false := by
          simp [chunkSucceeds, hemb]
        rw [show initChunkStep embedFn (n, st) ch = (n, st) from by
          simp [initChunkStep, hemb, VectorStore.add]]
        rw [List.filter_cons, hsucc]
        simpa using ih n st
      · have hsucc : chunkSucceeds embedFn ch = true := by
          simp [chunkSucceeds, hemb, he]
        rw [show initChunkStep embedFn (n, st) ch
            = (n + 1, insertOrReplace st (chunkDoc embedFn ch)) from by
          simp [initChunkStep, hemb, VectorStore.add, he, chunkDoc]]
        rw [List.filter_cons, hsucc]
        rw [ih (n + 1) (insertOrReplace st (chunkDoc embedFn ch))]
        simp only [if_true, List.length_cons, List.foldl_cons]
        refine Prod.ext ?_ rfl
        simp only []
        omega

/-- The document fold of `initialize` over the flattened successful
chunks. -/
theorem initialize_fold (embedFn : List Char → Option (List ℚ))
    (proc : DocumentProcessor) (docs : List InputDoc) :
    ∀ (n : Nat) (st : List Document),
      docs.foldl
        (fun acc docData =>
          (proc.process docData.content docData.metadata).foldl
            (initChunkStep embedFn) acc)
        (n, st)
      = (n + ((docs.map (successfulChunks embedFn proc)).flatten).length,
         ((docs.map (successfulChunks embedFn proc)).flatten).foldl
           (fun s ch => insertOrReplace s (chunkDoc embedFn ch)) st) := by
  induction docs with
  | nil => intro n st; simp
  | cons dd rest ih =>
    intro n st
    rw [List.foldl_cons, foldl_initChunkStep, ih]
    simp only [List.map_cons, List.flatten_cons, List.length_append,
      List.foldl_append, successfulChunks]
    refine Prod.ext ?_ rfl
    simp only []
    omega

/-- `initialize` unrolled: the count is the number of successful chunks and
the final store is the fold of `insertOrReplace` over them, starting from
the cleared store. -/
theorem initialize_eq (embedFn : List Char → Option (List ℚ))
    (proc : DocumentProcessor) (docs : List InputDoc) (store : List Document) :
    RAGService.initializeStore embedFn proc docs store
      = (((docs.map (successfulChunks embedFn proc)).flatten).length,
         ((docs.map (successfulChunks embedFn proc)).flatten).foldl
           (fun s ch => insertOrReplace s (chunkDoc embedFn ch)) []) := by
  unfold RAGService.initializeStore
  rw [initialize_fold]
  simp

/-- `insertOrReplace` grows the store by at most one entry. -/
theorem length_insertOrReplace (st : List Document) (d : Document) :
    (insertOrReplace st d).length ≤ st.length + 1 := by
  induction st with
  | nil => simp [insertOrReplace]
  | cons x xs ih =>
    by_cases hx : x.id = d.id <;> simp [insertOrReplace, hx] <;> omega

/-- Inserting a fresh id appends it to the id sequence. -/
theorem map_id_insertOrReplace_fresh (st : List Document) (d : Document)
    (h : d.id ∉ st.map Document.id) :
    (insertOrReplace st d).map Document.id = st.map Document.id ++ [d.id] := by
  induction st with
  | nil => simp [insertOrReplace]
  | cons x xs ih =>
    have h2 : d.id ∉ xs.map Document.id := by
      intro hmem; exact h (by simp [hmem])
    have hne : x.id ≠ d.id := by
      intro he; exact h (by simp [he])
    rw [show insertOrReplace (x :: xs) d = x :: insertOrReplace xs d from by
      simp [insertOrReplace, hne]]
    simp [ih h2]

/-- The store built by folding `insertOrReplace` holds at most one entry per
chunk. -/
theorem foldl_insert_length_le (embedFn : List Char → Option (List ℚ))
    (L : List Chunk) :
    ∀ st : List Document,
      (L.foldl (fun s ch => insertOrReplace s (chunkDoc embedFn ch)) st).length
        ≤ st.length + L.length := by
  induction L with
  | nil => intro st; simp
  | cons ch rest ih =>
    intro st
    rw [List.foldl_cons]
    have h1 := ih (insertOrReplace st (chunkDoc embedFn ch))
    have h2 := length_insertOrReplace st (chunkDoc embedFn ch)
    simp only [List.length_cons]
    omega

/-- With pairwise-distinct fresh ids, every insertion grows the store. -/
theorem foldl_insert_length_eq (embedFn : List Char → Option (List ℚ))
    (L : List Chunk) :
    ∀ st : List Document, (L.map Chunk.id).Nodup →
      (∀ ch ∈ L, ch.id ∉ st.map Document.id) →
      (L.foldl (fun s ch => insertOrReplace s (chunkDoc embedFn ch)) st).length
        = st.length + L.length := by
  induction L with
  | nil => intro st _ _; simp
  | cons ch rest ih =>
    intro st hnd hfresh
    have hch : (chunkDoc embedFn ch).id ∉ st.map Document.id :=
      hfresh ch (List.mem_cons_self _ _)
    have hids : (insertOrReplace st (chunkDoc embedFn ch)).map Document.id
        = st.map Document.id ++ [ch.id] :=
      map_id_insertOrReplace_fresh st (chunkDoc embedFn ch) hch
    have hlen : (insertOrReplace st (chunkDoc embedFn ch)).length
        = st.length + 1 := by
      have := congrArg List.length hids
      simpa using this
    have hndrest : (rest.map Chunk.id).Nodup := (List.nodup_cons.mp hnd).2
    have hhead : ch.id ∉ rest.map Chunk.id := (List.nodup_cons.mp hnd).1
    have hfresh' : ∀ ch' ∈ rest,
        ch'.id ∉ (insertOrReplace st (chunkDoc embedFn ch)).map Document.id := by
      intro ch' hch' hmem
      rw [hids] at hmem
      rcases List.mem_append.mp hmem with hst | hone
      · exact hfresh ch' (List.mem_cons_of_mem _ hch') hst
      · have : ch'.id = ch.id := by simpa using hone
        exact hhead (this ▸ List.mem_map_of_mem _ hch')
    rw [List.foldl_cons, ih _ hndrest hfresh', hlen]
    simp only [List.length_cons]
    omega

/-- When every embedding call fails, no document has any successful
chunk. -/
theorem successfulChunks_allFail (embedFn : List Char → Option (List ℚ))
    (proc : DocumentProcessor) (dd : InputDoc) (h : ∀ t, embedFn t = none) :
    successfulChunks embedFn proc dd = [] := by
  simp [successfulChunks, chunkSucceeds, h]

/-- C10 counterexample: two input documents that share the metadata title
`"t"` produce colliding chunk ids, so although both chunks embed
successfully (count 2), the second insert overwrites the first and the
store's size is 1 ≠ 2 — the claimed equality between the returned count and
the store size is false. -/
theorem c10_counterexample_id_collision :
    (RAGService.initializeStore (fun _ => some [1]) ⟨500, 50⟩ dupTitleDocs []).1 = 2 ∧
    (RAGService.initializeStore (fun _ => some [1]) ⟨500, 50⟩ dupTitleDocs []).2.length
      = 1 := by
  decide

/-- C10 (amended): `initialize` unconditionally clears the store first (its
result is independent of the prior store contents, and if every embedding
call fails the store ends empty — prior contents are lost); each chunk whose
embedding call raises is skipped without aborting the rest; the returned
count equals the number of successfully inserted chunks; and the store size
afterwards is at most that count, with equality when the successfully
inserted chunks have pairwise-distinct ids (id collisions overwrite). -/
theorem c10_initialize_spec (embedFn : List Char → Option (List ℚ))
    (proc : DocumentProcessor) (docs : List InputDoc) :
    (∀ s s', RAGService.initializeStore embedFn proc docs s
        = RAGService.initializeStore embedFn proc docs s') ∧
    ((RAGService.initializeStore embedFn proc docs []).1
        = ((docs.map (successfulChunks embedFn proc)).flatten).length) ∧
    ((RAGService.initializeStore embedFn proc docs []).2.length
        ≤ (RAGService.initializeStore embedFn proc docs []).1) ∧
    ((((docs.map (successfulChunks embedFn proc)).flatten).map Chunk.id).Nodup →
      (RAGService.initializeStore embedFn proc docs []).2.length
        = (RAGService.initializeStore embedFn proc docs []).1) ∧
    ((∀ t, embedFn t = none) →
      ∀ s, RAGService.initializeStore embedFn proc docs s = (0, [])) := by
  refine ⟨fun s s' => rfl, ?_, ?_, ?_, ?_⟩
  · rw [initialize_eq]
  · rw [initialize_eq]
    have h := foldl_insert_length_le embedFn
      ((docs.map (successfulChunks embedFn proc)).flatten) []
    simp only [List.length_nil, Nat.zero_add] at h
    exact h
  · intro hnd
    rw [initialize_eq]
    have h := foldl_insert_length_eq embedFn
      ((docs.map (successfulChunks embedFn proc)).flatten) [] hnd (by simp)
    simp only [List.length_nil, Nat.zero_add] at h
    exact h
  · intro hfail s
    rw [initialize_eq]
    have hflat : (docs.map (successfulChunks embedFn proc)).flatten = [] := by
      rw [List.flatten_eq_nil_iff]
      intro l hl
      obtain ⟨dd, -, rfl⟩ := List.mem_map.mp hl
      exact successfulChunks_allFail embedFn proc dd hfail
    rw [hflat]
    rfl

/-- C10 witness: one input document with one chunk, every embedding
succeeding — the store size equals the returned count. -/
theorem c10_initialize_spec_witness :
    ((([⟨"a.".toList, { title := some "t" }⟩] : List InputDoc).map
        (successfulChunks (fun _ => some [1]) ⟨500, 50⟩)).flatten.map
          Chunk.id).Nodup ∧
    (RAGService.initializeStore (fun _ => some [1]) ⟨500, 50⟩
        [⟨"a.".toList, { title := some "t" }⟩] []).2.length
      = (RAGService.initializeStore (fun _ => some [1]) ⟨500, 50⟩
          [⟨"a.".toList, { title := some "t" }⟩] []).1 :=
  ⟨by decide,
    (c10_initialize_spec (fun _ => some [1]) ⟨500, 50⟩
      [⟨"a.".toList, { title := some "t" }⟩]).2.2.2.1 (by decide)⟩

/-! ## C6 — chunk length accounting -/

/-- Stripping never lengthens a string. -/
theorem pyStrip_length_le (l : List Char) : (pyStrip l).length ≤ l.length := by
  unfold pyStrip
  simp only [List.length_reverse]
  calc ((l.dropWhile pyIsSpace).reverse.dropWhile pyIsSpace).length
      ≤ (l.dropWhile pyIsSpace).reverse.length :=
        (List.dropWhile_sublist pyIsSpace).length_le
    _ = (l.dropWhile pyIsSpace).length := List.length_reverse _
    _ ≤ l.length := (List.dropWhile_sublist pyIsSpace).length_le

/-- Stripping only removes characters. -/
theorem pyStrip_subset (l : List Char) {c : Char} (h : c ∈ pyStrip l) : c ∈ l := by
  unfold pyStrip at h
  rw [List.mem_reverse] at h
  have h2 := List.dropWhile_subset pyIsSpace h
  rw [List.mem_reverse] at h2
  exact List.dropWhile_subset pyIsSpace h2

/-- Characters failing the predicate survive `dropWhile`. -/
theorem mem_dropWhile_of_neg (p : Char → Bool) (l : List Char) {c : Char}
    (hc : c ∈ l) (hp : p c = false) : c ∈ l.dropWhile p := by
  rw [← List.takeWhile_append_dropWhile p l] at hc
  rcases List.mem_append.mp hc with h | h
  · have := List.mem_takeWhile_imp h
    rw [hp] at this
    exact absurd this (by simp)
  · exact h

/-- A non-whitespace character survives stripping. -/
theorem mem_pyStrip_of_nonws (l : List Char) {c : Char}
    (hc : c ∈ l) (hp : pyIsSpace c = false) : c ∈ pyStrip l := by
  unfold pyStrip
  rw [List.mem_reverse]
  exact mem_dropWhile_of_neg _ _
    (by rw [List.mem_reverse]; exact mem_dropWhile_of_neg _ _ hc hp) hp

/-- A string containing a non-whitespace character does not strip to
empty. -/
theorem pyStrip_ne_nil_of_nonws (l : List Char) {c : Char}
    (hc : c ∈ l) (hp : pyIsSpace c = false) : pyStrip l ≠ [] :=
  List.ne_nil_of_mem (mem_pyStrip_of_nonws l hc hp)

/-- A non-empty strip contains a non-whitespace character. -/
theorem exists_nonws_of_pyStrip_ne_nil (l : List Char) (h : pyStrip l ≠ []) :
    ∃ c ∈ pyStrip l, pyIsSpace c = false := by
  unfold pyStrip at h ⊢
  set m := (l.dropWhile pyIsSpace).reverse with hm
  have hne : m.dropWhile pyIsSpace ≠ [] := by
    intro he; exact h (by rw [he]; rfl)
  refine ⟨(m.dropWhile pyIsSpace).head hne, ?_, ?_⟩
  · rw [List.mem_reverse]
    exact List.head_mem hne
  · exact List.head_dropWhile_not pyIsSpace m hne

/-- Every whitespace character emitted by `collapseWs` is a plain space. -/
theorem collapseWs_ws_eq_space (l : List Char) :
    ∀ c ∈ collapseWs l, pyIsSpace c = true → c = ' ' := by
  induction l with
  | nil => intro c hc; simp [collapseWs] at hc
  | cons x xs ih =>
    intro c hc hcw
    by_cases hx : pyIsSpace x = true
    · cases xs with
      | nil =>
        rw [show collapseWs [x] = [' '] from by simp [collapseWs, hx],
          List.mem_singleton] at hc
        exact hc
      | cons d ds =>
        by_cases hd : pyIsSpace d = true
        · rw [show collapseWs (x :: d :: ds) = collapseWs (d :: ds) from by
            simp [collapseWs, hx, hd]] at hc
          exact ih c hc hcw
        · rw [show collapseWs (x :: d :: ds) = ' ' :: collapseWs (d :: ds) from by
            simp [collapseWs, hx, hd]] at hc
          rcases List.mem_cons.mp hc with rfl | hc'
          · rfl
          · exact ih c hc' hcw
    · rw [show collapseWs (x :: xs) = x :: collapseWs xs from by
        cases xs <;> simp [collapseWs, hx]] at hc
      rcases List.mem_cons.mp hc with rfl | hc'
      · exact absurd hcw hx
      · exact ih c hc' hcw

/-- A terminator that is not a newline is not whitespace. -/
theorem isTerm_not_ws (c : Char) (h : isTerm c = true) (hn : c ≠ '\n') :
    pyIsSpace c = false := by
  simp only [isTerm, Bool.or_eq_true, decide_eq_true_eq] at h
  rcases h with ((rfl | rfl) | rfl) | rfl
  · rfl
  · rfl
  · rfl
  · exact absurd rfl hn

/-- The sentences found by the regex scanner never cover more characters
than the input has. -/
theorem fsAux_sum_le (rest : List Char) :
    ∀ (pre terms : List Char),
      ((fsAux pre terms rest).map List.length).sum
        ≤ pre.length + terms.length + rest.length := by
  induction rest with
  | nil =>
    intro pre terms
    cases terms with
    | nil => simp [fsAux]
    | cons t ts => simp [fsAux]
  | cons c cs ih =>
    intro pre terms
    cases terms with
    | nil =>
      by_cases hc : isTerm c = true
      · by_cases hpre : pre = []
        · subst hpre
          rw [show fsAux [] [] (c :: cs) = fsAux [] [] cs from by
            simp [fsAux, hc]]
          have h := ih [] []
          simp only [List.length_nil, List.length_cons] at h ⊢
          omega
        · rw [show fsAux pre [] (c :: cs) = fsAux pre [c] cs from by
            simp [fsAux, hc, hpre]]
          have h := ih pre [c]
          simp only [List.length_nil, List.length_cons] at h ⊢
          omega
      · rw [show fsAux pre [] (c :: cs) = fsAux (c :: pre) [] cs from by
          simp [fsAux, hc]]
        have h := ih (c :: pre) []
        simp only [List.length_nil, List.length_cons] at h ⊢
        omega
    | cons t ts =>
      by_cases hc : isTerm c = true
      · rw [show fsAux pre (t :: ts) (c :: cs) = fsAux pre (c :: t :: ts) cs from by
          simp [fsAux, hc]]
        have h := ih pre (c :: t :: ts)
        simp only [List.length_cons] at h ⊢
        omega
      · rw [show fsAux pre (t :: ts) (c :: cs)
            = (pre.reverse ++ (t :: ts).reverse) :: fsAux [c] [] cs from by
          simp [fsAux, hc]]
        have h := ih [c] []
        simp only [List.map_cons, List.sum_cons, List.length_append,
          List.length_reverse, List.length_cons, List.length_nil] at h ⊢
        omega

/-- Every sentence the scanner emits contains a terminator character drawn
from the allowed pool (instantiated below with the scanned text). -/
theorem fsAux_term_mem (rest : List Char) :
    ∀ (pre terms pool : List Char),
      (∀ c ∈ terms, isTerm c = true ∧ c ∈ pool) →
      (∀ c ∈ rest, c ∈ pool) →
      ∀ s ∈ fsAux pre terms rest, ∃ c ∈ s, isTerm c = true ∧ c ∈ pool := by
  induction rest with
  | nil =>
    intro pre terms pool hterms _ s hs
    cases terms with
    | nil => simp [fsAux] at hs
    | cons t ts =>
      rw [show fsAux pre (t :: ts) [] = [pre.reverse ++ (t :: ts).reverse] from rfl,
        List.mem_singleton] at hs
      subst hs
      refine ⟨t, ?_, hterms t (List.mem_cons_self _ _)⟩
      exact List.mem_append.mpr
        (Or.inr (List.mem_reverse.mpr (List.mem_cons_self _ _)))
  | cons c cs ih =>
    intro pre terms pool hterms hrest s hs
    have hc : c ∈ pool := hrest c (List.mem_cons_self _ _)
    have hrest' : ∀ x ∈ cs, x ∈ pool :=
      fun x hx => hrest x (List.mem_cons_of_mem _ hx)
    cases terms with
    | nil =>
      by_cases hct : isTerm c = true
      · by_cases hpre : pre = []
        · rw [show fsAux pre [] (c :: cs) = fsAux [] [] cs from by
            simp [fsAux, hct, hpre]] at hs
          exact ih [] [] pool (fun x hx => absurd hx (List.not_mem_nil x))
            hrest' s hs
        · rw [show fsAux pre [] (c :: cs) = fsAux pre [c] cs from by
            simp [fsAux, hct, hpre]] at hs
          refine ih pre [c] pool ?_ hrest' s hs
          intro x hx
          rw [List.mem_singleton] at hx
          subst hx
          exact ⟨hct, hc⟩
      · rw [show fsAux pre [] (c :: cs) = fsAux (c :: pre) [] cs from by
          simp [fsAux, hct]] at hs
        exact ih (c :: pre) [] pool (fun x hx => absurd hx (List.not_mem_nil x))
          hrest' s hs
    | cons t ts =>
      by_cases hct : isTerm c = true
      · rw [show fsAux pre (t :: ts) (c :: cs) = fsAux pre (c :: t :: ts) cs from by
          simp [fsAux, hct]] at hs
        refine ih pre (c :: t :: ts) pool ?_ hrest' s hs
        intro x hx
        rcases List.mem_cons.mp hx with rfl | hx'
        · exact ⟨hct, hc⟩
        · exact hterms x hx'
      · rw [show fsAux pre (t :: ts) (c :: cs)
            = (pre.reverse ++ (t :: ts).reverse) :: fsAux [c] [] cs from by
          simp [fsAux, hct]] at hs
        rcases List.mem_cons.mp hs with rfl | hs'
        · refine ⟨t, ?_, hterms t (List.mem_cons_self _ _)⟩
          exact List.mem_append.mpr
            (Or.inr (List.mem_reverse.mpr (List.mem_cons_self _ _)))
        · exact ih [c] [] pool (fun x hx => absurd hx (List.not_mem_nil x))
            hrest' s hs'

/-- The packing loop never emits more characters than it consumed. -/
theorem packLoop_sum_le (sents : List (List Char)) :
    ∀ (cs : Int) (current : List Char),
      ((packLoop cs current sents).map List.length).sum
        ≤ current.length + (sents.map List.length).sum := by
  induction sents with
  | nil =>
    intro cs current
    by_cases h : pyStrip current = []
    · simp [packLoop, h]
    · rw [show packLoop cs current [] = [pyStrip current] from by
        simp [packLoop, h]]
      have := pyStrip_length_le current
      simp only [List.map_cons, List.map_nil, List.sum_cons, List.sum_nil]
      omega
  | cons s ss ih =>
    intro cs current
    by_cases hc : ((current.length + s.length : Int) > cs ∧ current ≠ [])
    · rw [show packLoop cs current (s :: ss)
          = pyStrip current :: packLoop cs s ss from by
        simp only [packLoop, if_pos hc]]
      have h1 := ih cs s
      have h2 := pyStrip_length_le current
      simp only [List.map_cons, List.sum_cons] at h1 ⊢
      omega
    · rw [show packLoop cs current (s :: ss) = packLoop cs (current ++ s) ss from by
        simp only [packLoop, if_neg hc]]
      have h1 := ih cs (current ++ s)
      simp only [List.length_append, List.map_cons, List.sum_cons] at h1 ⊢
      omega

/-- If every sentence is empty or contains a non-whitespace character, every
emitted chunk is non-empty. -/
theorem packLoop_nonempty (sents : List (List Char)) :
    ∀ (cs : Int) (current : List Char),
      (∀ s ∈ sents, s = [] ∨ ∃ c ∈ s, pyIsSpace c = false) →
      (current = [] ∨ ∃ c ∈ current, pyIsSpace c = false) →
      ∀ ch ∈ packLoop cs current sents, ch ≠ [] := by
  induction sents with
  | nil =>
    intro cs current _ _ ch hch
    by_cases h : pyStrip current = []
    · simp [packLoop, h] at hch
    · rw [show packLoop cs current [] = [pyStrip current] from by
        simp [packLoop, h], List.mem_singleton] at hch
      subst hch
      exact h
  | cons s ss ih =>
    intro cs current hsents hcur ch hch
    have hs := hsents s (List.mem_cons_self _ _)
    have hss : ∀ x ∈ ss, x = [] ∨ ∃ c ∈ x, pyIsSpace c = false :=
      fun x hx => hsents x (List.mem_cons_of_mem _ hx)
    by_cases hc : ((current.length + s.length : Int) > cs ∧ current ≠ [])
    · rw [show packLoop cs current (s :: ss)
          = pyStrip current :: packLoop cs s ss from by
        simp only [packLoop, if_pos hc]] at hch
      rcases List.mem_cons.mp hch with rfl | hch'
      · rcases hcur with rfl | ⟨c, hcm, hcw⟩
        · exact absurd rfl hc.2
        · exact pyStrip_ne_nil_of_nonws current hcm hcw
      · exact ih cs s hss hs ch hch'
    · rw [show packLoop cs current (s :: ss) = packLoop cs (current ++ s) ss from by
        simp only [packLoop, if_neg hc]] at hch
      refine ih cs (current ++ s) hss ?_ ch hch
      rcases hcur with rfl | ⟨c, hcm, hcw⟩
      · rcases hs with rfl | ⟨c, hcm, hcw⟩
        · exact Or.inl rfl
        · exact Or.inr ⟨c, List.mem_append.mpr (Or.inr hcm), hcw⟩
      · exact Or.inr ⟨c, List.mem_append.mpr (Or.inl hcm), hcw⟩

/-- The chunks of `chunk_by_sentences` cover at most the input's
characters. -/
theorem chunkBySentences_sum_le (p : DocumentProcessor) (text : List Char) :
    ((p.chunkBySentences text).map List.length).sum ≤ text.length := by
  unfold DocumentProcessor.chunkBySentences
  by_cases h : findSentences text = []
  · rw [if_pos h]
    have := packLoop_sum_le [text] p.chunk_size []
    simpa using this
  · rw [if_neg h]
    have h1 := packLoop_sum_le (findSentences text) p.chunk_size []
    have h2 := fsAux_sum_le text [] []
    unfold findSentences at h1 h2
    simp only [List.length_nil] at h1 h2
    unfold findSentences
    omega

/-- On text whose whitespace is only plain spaces (as produced by the
normaliser), every chunk of `chunk_by_sentences` is non-empty. -/
theorem chunkBySentences_nonempty (p : DocumentProcessor) (text : List Char)
    (hws : ∀ c ∈ text, pyIsSpace c = true → c = ' ')
    (hne : text = [] ∨ ∃ c ∈ text, pyIsSpace c = false) :
    ∀ ch ∈ p.chunkBySentences text, ch ≠ [] := by
  unfold DocumentProcessor.chunkBySentences
  have hterm_nonws : ∀ c, isTerm c = true → c ∈ text → pyIsSpace c = false := by
    intro c hct hcm
    refine isTerm_not_ws c hct ?_
    intro hcn
    subst hcn
    have := hws '\n' hcm (by rfl)
    exact absurd this (by decide)
  by_cases h : findSentences text = []
  · rw [if_pos h]
    exact packLoop_nonempty [text] p.chunk_size []
      (fun s hs => by rw [List.mem_singleton] at hs; subst hs; exact hne)
      (Or.inl rfl)
  · rw [if_neg h]
    refine packLoop_nonempty (findSentences text) p.chunk_size [] ?_ (Or.inl rfl)
    intro s hs
    obtain ⟨c, hcm, hct, hcp⟩ :=
      fsAux_term_mem text [] [] text (fun x hx => absurd hx (List.not_mem_nil x))
        (fun c hc => hc) s hs
    exact Or.inr ⟨c, hcm, hterm_nonws c hct hcp⟩

/-- The chunk contents of `process` are exactly the chunks of
`chunk_by_sentences` on the normalised text. -/
theorem process_map_content (p : DocumentProcessor) (content : List Char)
    (md : Metadata) :
    (p.process content md).map Chunk.content
      = p.chunkBySentences (normalizeWs content) := by
  unfold DocumentProcessor.process
  rw [List.map_map]
  have heq : (Chunk.content ∘
        mkChunk (md.title.getD "untitled")
          (p.chunkBySentences (normalizeWs content)).length md)
      = Prod.snd := by
    funext ic
    rfl
  rw [heq]
  exact List.enum_map_snd _

/-- C6 counterexample: for the document `"Hello. world"` (with the default
`chunk_size = 500`, `chunk_overlap = 50`), the trailing text after the last
sentence terminator is dropped by the sentence regex, so the chunks cover 6
characters while the whitespace-normalised content has 12 — the claimed
inequality `sum ≥ len(normalize(content))` is false. -/
theorem c6_counterexample_dropped_tail :
    (((DocumentProcessor.process ⟨500, 50⟩ "Hello. world".toList {}).map
        (fun ch => ch.content.length)).sum = 6) ∧
    (normalizeWs "Hello. world".toList).length = 12 ∧
    ¬ ((normalizeWs "Hello. world".toList).length ≤
        ((DocumentProcessor.process ⟨500, 50⟩ "Hello. world".toList {}).map
          (fun ch => ch.content.length)).sum) := by
  refine ⟨by decide, by decide, by decide⟩

/-- C6 (amended): for every document and chunker configuration, the summed
chunk content lengths are at most (not at least) the length of the
whitespace-normalised content — characters can be lost to stripping at chunk
boundaries and to a trailing sentence fragment with no terminator — and no
produced chunk has empty content. -/
theorem c6_chunk_length_bound (p : DocumentProcessor) (content : List Char)
    (md : Metadata) :
    (((p.process content md).map (fun ch => ch.content.length)).sum
        ≤ (normalizeWs content).length) ∧
    (∀ ch ∈ p.process content md, ch.content ≠ []) := by
  have hmap : ((p.process content md).map (fun ch => ch.content.length))
      = ((p.process content md).map Chunk.content).map List.length := by
    rw [List.map_map]
    rfl
  have hws : ∀ c ∈ normalizeWs content, pyIsSpace c = true → c = ' ' := by
    intro c hc hcw
    exact collapseWs_ws_eq_space content c (pyStrip_subset _ hc) hcw
  have hne : normalizeWs content = [] ∨
      ∃ c ∈ normalizeWs content, pyIsSpace c = false := by
    by_cases h : normalizeWs content = []
    · exact Or.inl h
    · exact Or.inr (exists_nonws_of_pyStrip_ne_nil _ h)
  constructor
  · rw [hmap, process_map_content]
    exact chunkBySentences_sum_le p (normalizeWs content)
  · intro ch hch
    have hmem : ch.content ∈ (p.process content md).map Chunk.content :=
      List.mem_map_of_mem _ hch
    rw [process_map_content] at hmem
    exact chunkBySentences_nonempty p (normalizeWs content) hws hne
      ch.content hmem

/-- C6 witness: the bound instantiated at a concrete two-sentence
document. -/
theorem c6_chunk_length_bound_witness :
    (((DocumentProcessor.process ⟨500, 50⟩ "a. b.".toList {}).map
        (fun ch => ch.content.length)).sum
      ≤ (normalizeWs "a. b.".toList).length) ∧
    (∀ ch ∈ DocumentProcessor.process ⟨500, 50⟩ "a. b.".toList {},
      ch.content ≠ []) :=
  c6_chunk_length_bound ⟨500, 50⟩ "a. b.".toList {}

/-! ## C1 — `VectorStore.search` -/

/-- Cosine similarity is defined (raises no error) on equal-length
vectors. -/
theorem cosineSimilarity_isSome (sqrtf : ℚ → ℚ) (q e : List ℚ)
    (h : e.length = q.length) :
    ∃ s, cosineSimilarity sqrtf q e = some s := by
  unfold cosineSimilarity
  rw [if_neg (by omega)]
  by_cases hz : sqrtf ((q.map fun x => x * x).sum) = 0 ∨
      sqrtf ((e.map fun x => x * x).sum) = 0
  · exact ⟨0, by rw [if_pos hz]⟩
  · exact ⟨_, by rw [if_neg hz]⟩

/-- The candidate loop of `search` succeeds on a store of matching
dimensionality and collects exactly the documents passing the embedding,
filter and threshold tests, with their cosine similarities. -/
theorem searchCandidates_spec (sqrtf : ℚ → ℚ) (q : List ℚ) (threshold : ℚ)
    (fil : Option (Document → Bool)) (docs : List Document)
    (hdim : ∀ d ∈ docs, d.embedding ≠ [] → d.embedding.length = q.length) :
    ∃ cands, searchCandidates sqrtf q threshold fil docs = some cands ∧
      (∀ r ∈ cands, threshold ≤ r.similarity ∧ r.document ∈ docs ∧
        cosineSimilarity sqrtf q r.document.embedding = some r.similarity ∧
        r.document.embedding ≠ [] ∧ passesFilter fil r.document = true) ∧
      (∀ d ∈ docs, d.embedding ≠ [] → passesFilter fil d = true →
        ∀ s, cosineSimilarity sqrtf q d.embedding = some s → threshold ≤ s →
          SearchResult.mk d s ∈ cands) := by
  induction docs with
  | nil =>
    refine ⟨[], rfl, ?_, ?_⟩
    · intro r hr; exact absurd hr (List.not_mem_nil r)
    · intro d hd; exact absurd hd (List.not_mem_nil d)
  | cons d ds ih =>
    have hdim' : ∀ x ∈ ds, x.embedding ≠ [] → x.embedding.length = q.length :=
      fun x hx => hdim x (List.mem_cons_of_mem _ hx)
    obtain ⟨cands, hc, hprops, htotal⟩ := ih hdim'
    by_cases he : d.embedding = []
    · refine ⟨cands, ?_, ?_, ?_⟩
      · rw [show searchCandidates sqrtf q threshold fil (d :: ds)
            = searchCandidates sqrtf q threshold fil ds from by
          simp [searchCandidates, he]]
        exact hc
      · intro r hr
        obtain ⟨h1, h2, h3, h4, h5⟩ := hprops r hr
        exact ⟨h1, List.mem_cons_of_mem _ h2, h3, h4, h5⟩
      · intro x hx hxe hxf s hs hts
        rcases List.mem_cons.mp hx with rfl | hx'
        · exact absurd he hxe
        · exact htotal x hx' hxe hxf s hs hts
    · by_cases hf : passesFilter fil d = true
      · obtain ⟨s₀, hs₀⟩ := cosineSimilarity_isSome sqrtf q d.embedding
          (hdim d (List.mem_cons_self _ _) he)
        have hunfold : searchCandidates sqrtf q threshold fil (d :: ds)
            = some (if threshold ≤ s₀ then ⟨d, s₀⟩ :: cands else cands) := by
          rw [show searchCandidates sqrtf q threshold fil (d :: ds)
              = match cosineSimilarity sqrtf q d.embedding with
                | none => none
                | some s =>
                  match searchCandidates sqrtf q threshold fil ds with
                  | none => none
                  | some rest => some (if threshold ≤ s then ⟨d, s⟩ :: rest else rest)
              from by simp [searchCandidates, he, hf]]
          rw [hs₀, hc]
        refine ⟨if threshold ≤ s₀ then ⟨d, s₀⟩ :: cands else cands, hunfold, ?_, ?_⟩
        · intro r hr
          by_cases hts : threshold ≤ s₀
          · rw [if_pos hts] at hr
            rcases List.mem_cons.mp hr with rfl | hr'
            · exact ⟨hts, List.mem_cons_self _ _, hs₀, he, hf⟩
            · obtain ⟨h1, h2, h3, h4, h5⟩ := hprops r hr'
              exact ⟨h1, List.mem_cons_of_mem _ h2, h3, h4, h5⟩
          · rw [if_neg hts] at hr
            obtain ⟨h1, h2, h3, h4, h5⟩ := hprops r hr
            exact ⟨h1, List.mem_cons_of_mem _ h2, h3, h4, h5⟩
        · intro x hx hxe hxf s hs hts
          rcases List.mem_cons.mp hx with rfl | hx'
          · have hss : s = s₀ := by
              rw [hs₀] at hs
              exact (Option.some.injEq _ _ ▸ hs).symm ▸ rfl
            subst hss
            rw [if_pos hts]
            exact List.mem_cons_self _ _
          · have hmem := htotal x hx' hxe hxf s hs hts
            by_cases hts₀ : threshold ≤ s₀
            · rw [if_pos hts₀]
              exact List.mem_cons_of_mem _ hmem
            · rw [if_neg hts₀]
              exact hmem
      · refine ⟨cands, ?_, ?_, ?_⟩
        · rw [show searchCandidates sqrtf q threshold fil (d :: ds)
              = searchCandidates sqrtf q threshold fil ds from by
            simp [searchCandidates, he, hf]]
          exact hc
        · intro r hr
          obtain ⟨h1, h2, h3, h4, h5⟩ := hprops r hr
          exact ⟨h1, List.mem_cons_of_mem _ h2, h3, h4, h5⟩
        · intro x hx hxe hxf s hs hts
          rcases List.mem_cons.mp hx with rfl | hx'
          · exact absurd hxf hf
          · exact htotal x hx' hxe hxf s hs hts

/-- The descending comparison is transitive. -/
theorem simDescLE_trans (a b c : SearchResult) :
    simDescLE a b → simDescLE b c → simDescLE a c := by
  simp only [simDescLE, decide_eq_true_eq]
  exact fun h1 h2 => le_trans h2 h1

/-- The descending comparison is total. -/
theorem simDescLE_total (a b : SearchResult) :
    simDescLE a b || simDescLE b a := by
  simp only [simDescLE]
  rcases le_total a.similarity b.similarity with h | h <;> simp [h]

/-- Python's stable sort preserves, for each similarity value, the relative
order of the results carrying that value: the filter of the sorted list at
any value equals the filter of the unsorted candidate list. -/
theorem mergeSort_filter_sim (cands : List SearchResult) (v : ℚ) :
    (cands.mergeSort simDescLE).filter (fun r => r.similarity = v)
      = cands.filter (fun r => r.similarity = v) := by
  have hpair : (cands.filter (fun r => r.similarity = v)).Pairwise
      (fun a b => simDescLE a b = true) := by
    refine List.pairwise_of_forall_mem_list ?_
    intro a ha b hb
    have hav : a.similarity = v := by
      have := List.of_mem_filter ha
      simpa using this
    have hbv : b.similarity = v := by
      have := List.of_mem_filter hb
      simpa using this
    simp [simDescLE, hav, hbv]
  have hsub : List.Sublist (cands.filter (fun r => r.similarity = v))
      (cands.mergeSort simDescLE) :=
    List.sublist_mergeSort simDescLE_trans simDescLE_total hpair
      (List.filter_sublist cands)
  have hsub2 : List.Sublist
      ((cands.filter (fun r => r.similarity = v)).filter
        (fun r => r.similarity = v))
      ((cands.mergeSort simDescLE).filter (fun r => r.similarity = v)) :=
    hsub.filter _
  have hff : (cands.filter (fun r => r.similarity = v)).filter
        (fun r => r.similarity = v)
      = cands.filter (fun r => r.similarity = v) := by
    rw [List.filter_filter]
    exact List.filter_congr fun a _ => by
      by_cases h : a.similarity = v <;> simp [h]
  rw [hff] at hsub2
  have hperm : List.Perm
      ((cands.mergeSort simDescLE).filter (fun r => r.similarity = v))
      (cands.filter (fun r => r.similarity = v)) :=
    (List.mergeSort_perm cands simDescLE).filter _
  exact (hsub2.eq_of_length hperm.length_eq.symm).symm

/-- C1: on a store of matching dimensionality, `search` succeeds and returns
at most `limit` results; every returned result has similarity ≥ `threshold`
(and a candidate whose similarity is exactly the threshold is kept by the
threshold test, while the similarity of every result is its document's
cosine similarity, so a document strictly below the threshold can never be
returned); the returned list is sorted by similarity descending; and for
every similarity value the returned results with that value appear in store
(insertion) order — they form a prefix of the candidates with that value, in
store order (stability of the sort resolves ties by insertion order). -/
theorem c1_search_spec (sqrtf : ℚ → ℚ) (q : List ℚ) (limit : Nat)
    (threshold : ℚ) (fil : Option (Document → Bool)) (docs : List Document)
    (hdim : ∀ d ∈ docs, d.embedding ≠ [] → d.embedding.length = q.length) :
    ∃ cands out,
      searchCandidates sqrtf q threshold fil docs = some cands ∧
      VectorStore.search sqrtf q limit threshold fil docs = some out ∧
      out.length ≤ limit ∧
      (∀ r ∈ out, threshold ≤ r.similarity) ∧
      out.Pairwise (fun a b => b.similarity ≤ a.similarity) ∧
      (∀ r ∈ out, r ∈ cands) ∧
      (∀ v : ℚ, ∃ t, out.filter (fun r => r.similarity = v) ++ t
          = cands.filter (fun r => r.similarity = v)) ∧
      (∀ r ∈ cands, threshold ≤ r.similarity ∧ r.document ∈ docs ∧
        cosineSimilarity sqrtf q r.document.embedding = some r.similarity) ∧
      (∀ d ∈ docs, d.embedding ≠ [] → passesFilter fil d = true →
        ∀ s, cosineSimilarity sqrtf q d.embedding = some s → threshold ≤ s →
          SearchResult.mk d s ∈ cands) := by
  obtain ⟨cands, hc, hprops, htotal⟩ :=
    searchCandidates_spec sqrtf q threshold fil docs hdim
  refine ⟨cands, (cands.mergeSort simDescLE).take limit, hc, ?_, ?_, ?_, ?_, ?_,
    ?_, ?_, htotal⟩
  · unfold VectorStore.search
    rw [hc]
    rfl
  · exact List.length_take_le _ _
  · intro r hr
    have hr' : r ∈ cands :=
      List.mem_mergeSort.mp (List.mem_of_mem_take hr)
    exact (hprops r hr').1
  · have hsorted : (cands.mergeSort simDescLE).Pairwise
        (fun a b => simDescLE a b = true) :=
      List.sorted_mergeSort simDescLE_trans simDescLE_total cands
    have htake : ((cands.mergeSort simDescLE).take limit).Pairwise
        (fun a b => simDescLE a b = true) :=
      hsorted.sublist (List.take_sublist _ _)
    exact htake.imp fun h => by simpa [simDescLE] using h
  · intro r hr
    exact List.mem_mergeSort.mp (List.mem_of_mem_take hr)
  · intro v
    refine ⟨((cands.mergeSort simDescLE).drop limit).filter
      (fun r => r.similarity = v), ?_⟩
    rw [← List.filter_append, List.take_append_drop, mergeSort_filter_sim]
  · intro r hr
    obtain ⟨h1, h2, h3, -, -⟩ := hprops r hr
    exact ⟨h1, h2, h3⟩

/-- C1 witness: a two-document store (one document below, one above the
threshold) with one-dimensional embeddings and the identity as the modelled
square root. -/
theorem c1_search_spec_witness :
    (∀ d ∈ [(⟨"a", "xa", {}, [1]⟩ : Document), ⟨"b", "xb", {}, [0]⟩],
      d.embedding ≠ [] → d.embedding.length = ([(1 : ℚ)]).length) ∧
    (∃ cands out,
      searchCandidates id [(1 : ℚ)] (1 / 2) none
          [⟨"a", "xa", {}, [1]⟩, ⟨"b", "xb", {}, [0]⟩] = some cands ∧
      VectorStore.search id [(1 : ℚ)] 5 (1 / 2) none
          [⟨"a", "xa", {}, [1]⟩, ⟨"b", "xb", {}, [0]⟩] = some out ∧
      out.length ≤ 5 ∧
      (∀ r ∈ out, (1 : ℚ) / 2 ≤ r.similarity) ∧
      out.Pairwise (fun a b => b.similarity ≤ a.similarity) ∧
      (∀ r ∈ out, r ∈ cands) ∧
      (∀ v : ℚ, ∃ t, out.filter (fun r => r.similarity = v) ++ t
          = cands.filter (fun r => r.similarity = v)) ∧
      (∀ r ∈ cands, (1 : ℚ) / 2 ≤ r.similarity ∧
        r.document ∈ [(⟨"a", "xa", {}, [1]⟩ : Document), ⟨"b", "xb", {}, [0]⟩] ∧
        cosineSimilarity id [(1 : ℚ)] r.document.embedding
          = some r.similarity) ∧
      (∀ d ∈ [(⟨"a", "xa", {}, [1]⟩ : Document), ⟨"b", "xb", {}, [0]⟩],
        d.embedding ≠ [] → passesFilter none d = true →
        ∀ s, cosineSimilarity id [(1 : ℚ)] d.embedding = some s →
          (1 : ℚ) / 2 ≤ s → SearchResult.mk d s ∈ cands)) :=
  ⟨by decide,
    c1_search_spec id [(1 : ℚ)] 5 (1 / 2) none
      [⟨"a", "xa", {}, [1]⟩, ⟨"b", "xb", {}, [0]⟩] (by decide)⟩
